import Mathlib

/-!
Formal model of the kobe repository (jito-foundation/kobe): BAM-subsidy
Merkle trees, the writer-service reward attribution, the BAM writer
service (eligibility, tier allocation, run loop tail) and the stake-pool
cranker.  Shallow embedding: Rust u64 values are modelled as Nat with
explicit `% 2^64` / bound checks where the source wraps, truncates or
panics; fallible paths return Except.  Solana pubkeys are modelled as Nat
(Pubkey::default() = 0).
-/

namespace Kobe

/-- The u64 modulus. -/
def U64MOD : Nat := 2 ^ 64

/-! ## Merkle tree core

The crate `kobe-merkle-tree` builds its internal tree through
`MerkleTree::new(&hashed_nodes, true)` (module `merkle_tree`, a vendored
solana merkle tree) and checks inclusion through
`jito_bam_boost_merkle_verify::verify`; neither file is under `src/`, so
both are modelled from the spec: leaves are domain-separated with the
prefix byte `0x00` before hashing, every non-leaf hash combines the two
child hashes, an odd layer duplicates its last node to pair it, and a
proof is the list of sibling hashes from the leaf to the root which
`verify` folds back into the root.  The sha256 digest is modelled as a
free term algebra (`HashV`), which is injective, and the fold orders each
combined pair canonically (the byte-comparison order of the digests is
modelled by a structural total order on terms), so that a direction-free
proof, as in the source where a proof is a bare `Vec<[u8; 32]>`,
recombines on the correct side. -/

/-- Abstract hash digests: `data c a` stands for `H(claimant || amount_le_bytes)`,
`leaf h` for `H(0x00 || h)` and `node l r` for the hash of two combined children. -/
inductive HashV where
  | data : Nat → Nat → HashV
  | leaf : HashV → HashV
  | node : HashV → HashV → HashV
deriving DecidableEq, Repr

/-- Default digest (used only for out-of-range list reads, which are never hit). -/
def dHash : HashV := HashV.data 0 0

/-- Structural total order on digests, standing in for the byte-wise comparison
of 32-byte digests used by the verifier. -/
def hcmp : HashV → HashV → Ordering
  | .data a b, .data c d =>
      if a < c then .lt else if c < a then .gt
      else if b < d then .lt else if d < b then .gt else .eq
  | .data _ _, .leaf _ => .lt
  | .data _ _, .node _ _ => .lt
  | .leaf _, .data _ _ => .gt
  | .leaf x, .leaf y => hcmp x y
  | .leaf _, .node _ _ => .lt
  | .node _ _, .data _ _ => .gt
  | .node _ _, .leaf _ => .gt
  | .node a b, .node c d =>
      match hcmp a c with
      | .eq => hcmp b d
      | o => o

theorem hcmp_eq_iff : ∀ a b : HashV, hcmp a b = Ordering.eq ↔ a = b := by
  intro a
  induction a with
  | data x y =>
      intro b
      cases b with
      | data c d =>
          simp only [hcmp]
          constructor
          · intro h
            split_ifs at h <;> first | (congr 1 <;> omega) | cases h
          · intro h
            injection h with h1 h2
            subst h1; subst h2
            simp
      | leaf _ => simp [hcmp]
      | node _ _ => simp [hcmp]
  | leaf x ih =>
      intro b
      cases b with
      | data _ _ => simp [hcmp]
      | leaf y =>
          simp only [hcmp]
          rw [ih y]
          constructor
          · intro h; rw [h]
          · intro h; cases h; rfl
      | node _ _ => simp [hcmp]
  | node x y ihx ihy =>
      intro b
      cases b with
      | data _ _ => simp [hcmp]
      | leaf _ => simp [hcmp]
      | node c d =>
          simp only [hcmp]
          constructor
          · intro h
            cases hxc : hcmp x c with
            | eq =>
                rw [hxc] at h
                have h1 := (ihx c).mp hxc
                have h2 := (ihy d).mp h
                rw [h1, h2]
            | lt => rw [hxc] at h; cases h
            | gt => rw [hxc] at h; cases h
          · intro h
            injection h with h1 h2
            subst h1; subst h2
            rw [(ihx x).mpr rfl, (ihy y).mpr rfl]

theorem hcmp_swap : ∀ a b : HashV, hcmp b a = (hcmp a b).swap := by
  intro a
  induction a with
  | data x y =>
      intro b
      cases b with
      | data c d =>
          simp only [hcmp]
          split_ifs <;> first | rfl | omega
      | leaf _ => rfl
      | node _ _ => rfl
  | leaf x ih =>
      intro b
      cases b with
      | data _ _ => rfl
      | leaf y => simpa [hcmp] using ih y
      | node _ _ => rfl
  | node x y ihx ihy =>
      intro b
      cases b with
      | data _ _ => rfl
      | leaf _ => rfl
      | node c d =>
          simp only [hcmp]
          rw [ihx c, ihy d]
          cases hcmp x c <;> simp [Ordering.swap]

/-- Order-normalised combination of two sibling digests: the smaller digest is
hashed on the left, matching a verifier that orders each pair by byte
comparison before hashing. -/
def nodeOf (a b : HashV) : HashV :=
  match hcmp a b with
  | .gt => HashV.node b a
  | _ => HashV.node a b

theorem nodeOf_comm (a b : HashV) : nodeOf a b = nodeOf b a := by
  unfold nodeOf
  rw [hcmp_swap a b]
  cases h : hcmp a b with
  | lt => simp [Ordering.swap]
  | gt => simp [Ordering.swap]
  | eq =>
      have := (hcmp_eq_iff a b).mp h
      subst this
      simp [Ordering.swap]

/-- One construction layer: adjacent digests are pairwise combined and an odd
trailing digest is duplicated to pair with itself. -/
def levelUp : List HashV → List HashV
  | [] => []
  | [a] => [nodeOf a a]
  | a :: b :: rest => nodeOf a b :: levelUp rest

theorem levelUp_length : ∀ l : List HashV, (levelUp l).length = (l.length + 1) / 2
  | [] => rfl
  | [a] => by simp [levelUp]
  | _ :: _ :: rest => by
      simp only [levelUp, List.length_cons, levelUp_length rest]
      omega

theorem levelUp_getD (d : HashV) :
    ∀ (l : List HashV) (k : Nat), 2 * k < l.length →
      (levelUp l).getD k d =
        nodeOf (l.getD (2 * k) d)
          (if 2 * k + 1 < l.length then l.getD (2 * k + 1) d else l.getD (2 * k) d)
  | [], k, h => by simp at h
  | [a], k, h => by
      have hk : k = 0 := by simp at h; omega
      subst hk
      simp [levelUp]
  | a :: b :: rest, 0, _ => by
      simp [levelUp]
  | a :: b :: rest, k + 1, h => by
      have h2 : 2 * k < rest.length := by
        simp only [List.length_cons] at h; omega
      have := levelUp_getD d rest k h2
      simp only [List.length_cons] at h ⊢
      have e1 : 2 * (k + 1) = 2 * k + 1 + 1 := by omega
      have e2 : 2 * (k + 1) + 1 = 2 * k + 1 + 1 + 1 := by omega
      simp only [levelUp, e1, e2, List.getD_cons_succ]
      rw [this]
      by_cases hlt : 2 * k + 1 < rest.length <;> simp [hlt] <;> omega

/-- Root computation on layer lists, structurally recursive on a fuel bound
(the layer length strictly shrinks, so a fuel of the initial length always
suffices; fuel keeps the definition kernel-evaluable). -/
def rootOfAux : Nat → List HashV → Option HashV
  | _, [] => none
  | _, [a] => some a
  | 0, _ :: _ :: _ => none
  | fuel + 1, a :: b :: rest => rootOfAux fuel (levelUp (a :: b :: rest))

/-- Root of a layer list, combining layers until a single digest remains
(`None` for the empty tree, as `MerkleTree::get_root` on no nodes). -/
def rootOf (l : List HashV) : Option HashV := rootOfAux l.length l

/-- Proof extraction on layer lists, same fuel discipline as `rootOfAux`. -/
def proofOfAux : Nat → List HashV → Nat → List HashV
  | _, [], _ => []
  | _, [_], _ => []
  | 0, _ :: _ :: _, _ => []
  | fuel + 1, a :: b :: rest, i =>
      let full := a :: b :: rest
      let j := if i % 2 = 0 then i + 1 else i - 1
      let sib := if j < full.length then full.getD j dHash else full.getD i dHash
      sib :: proofOfAux fuel (levelUp full) (i / 2)

/-- Proof for the digest at index `i`: its sibling at each layer (itself when it
is the duplicated odd tail), bottom layer first. -/
def proofOf (l : List HashV) (i : Nat) : List HashV := proofOfAux l.length l i

/-- Modelled from the spec: `jito_bam_boost_merkle_verify::verify` folds the
proof hashes into the candidate leaf digest, ordering each pair
canonically, and compares the result with the root. -/
def merkleVerify (proof : List HashV) (root : HashV) (node : HashV) : Bool :=
  proof.foldl (fun acc p => nodeOf acc p) node == root

/-- Any in-range digest of a layer list recombines with its proof to the root,
for any sufficient fuel. -/
theorem merkle_roundtripAux :
    ∀ (fuel : Nat) (l : List HashV) (i : Nat) (r : HashV), l.length ≤ fuel →
      rootOfAux fuel l = some r → i < l.length →
      List.foldl (fun acc p => nodeOf acc p) (l.getD i dHash) (proofOfAux fuel l i) = r
  | _, [], _, _, _, hr, hi => by simp at hi
  | fuel, [a], i, r, _, hr, hi => by
      have hi0 : i = 0 := by simp at hi; omega
      subst hi0
      cases fuel with
      | zero =>
          simp only [rootOfAux, Option.some.injEq] at hr
          simpa [proofOfAux] using hr
      | succ fuel2 =>
          simp only [rootOfAux, Option.some.injEq] at hr
          simpa [proofOfAux] using hr
  | 0, a :: b :: rest, i, r, hf, hr, hi => by
      simp only [List.length_cons] at hf
      omega
  | fuel + 1, a :: b :: rest, i, r, hf, hr, hi => by
      have hup : (levelUp (a :: b :: rest)).length = ((a :: b :: rest).length + 1) / 2 :=
        levelUp_length _
      have hfuel : (levelUp (a :: b :: rest)).length ≤ fuel := by
        rw [hup]; simp only [List.length_cons] at hf ⊢; omega
      have hhalf : i / 2 < (levelUp (a :: b :: rest)).length := by
        rw [hup]; simp only [List.length_cons] at hi ⊢; omega
      have hr2 : rootOfAux fuel (levelUp (a :: b :: rest)) = some r := by
        rw [rootOfAux] at hr; exact hr
      have ih := merkle_roundtripAux fuel (levelUp (a :: b :: rest)) (i / 2) r hfuel hr2 hhalf
      rw [proofOfAux]
      simp only [List.foldl_cons]
      have hkey :
          nodeOf ((a :: b :: rest).getD i dHash)
            (if (if i % 2 = 0 then i + 1 else i - 1) < (a :: b :: rest).length
              then (a :: b :: rest).getD (if i % 2 = 0 then i + 1 else i - 1) dHash
              else (a :: b :: rest).getD i dHash) =
          (levelUp (a :: b :: rest)).getD (i / 2) dHash := by
        rcases Nat.even_or_odd i with he | ho
        · obtain ⟨k, hk⟩ := he
          have hik : i = 2 * k := by omega
          subst hik
          have hmod : 2 * k % 2 = 0 := by omega
          have hdiv : 2 * k / 2 = k := by omega
          rw [hdiv, levelUp_getD dHash _ k (by simpa using hi)]
          simp [hmod]
        · obtain ⟨k, hk⟩ := ho
          subst hk
          have hmod : ¬((2 * k + 1) % 2 = 0) := by omega
          have hdiv : (2 * k + 1) / 2 = k := by omega
          have hsub : 2 * k + 1 - 1 = 2 * k := by omega
          have h2k : 2 * k < (a :: b :: rest).length := by
            simp only [List.length_cons] at hi ⊢; omega
          rw [hdiv, levelUp_getD dHash _ k h2k]
          rw [if_neg hmod, hsub, if_pos h2k, if_pos hi]
          exact nodeOf_comm _ _
      rw [hkey]
      exact ih

/-- Any in-range digest of a layer list recombines with its proof to the root. -/
theorem merkle_roundtrip (l : List HashV) (i : Nat) (r : HashV) (hr : rootOf l = some r)
    (hi : i < l.length) :
    List.foldl (fun acc p => nodeOf acc p) (l.getD i dHash) (proofOf l i) = r :=
  merkle_roundtripAux l.length l i r (Nat.le_refl _) hr hi

/-! ## kobe-merkle-tree: `AirdropMerkleTree`

From `src/merkle-tree/src/{tree_node.rs, utils.rs, airdrop_merkle_tree.rs}`.
Amounts are u64; `checked_add(..).unwrap()` panics on overflow, modelled as
an `Except` error. -/

/-- `tree_node.rs` TreeNode: claimant pubkey, optional proof, amount. -/
structure TreeNode where
  claimant : Nat
  proof : Option (List HashV)
  amount : Nat
deriving DecidableEq, Repr

instance : Inhabited TreeNode := ⟨⟨0, none, 0⟩⟩

/-- `TreeNode::hash`: `hashv(&[&claimant.to_bytes(), &amount.to_le_bytes()])`. -/
def TreeNode.hash (n : TreeNode) : HashV := HashV.data n.claimant n.amount

/-- Rust u64 `checked_add(..).unwrap()`. -/
def checkedAddU64 (a b : Nat) : Except String Nat :=
  if a + b < U64MOD then .ok (a + b) else .error "attempt to add with overflow"

/-- One step of the claimant de-duplication in `AirdropMerkleTree::new`:
`tree_nodes_map.entry(claimant).and_modify(checked_add).or_insert(node)` on an
IndexMap, i.e. add the amount into the unique existing entry for that claimant,
or append a fresh entry at the end. -/
def dedupInsert (acc : List TreeNode) (n : TreeNode) : Except String (List TreeNode) :=
  match acc with
  | [] => .ok [n]
  | m :: rest =>
      if m.claimant = n.claimant then do
        let s ← checkedAddU64 m.amount n.amount
        .ok ({ m with amount := s } :: rest)
      else do
        let rest2 ← dedupInsert rest n
        .ok (m :: rest2)

/-- The de-duplication loop over the input nodes of `AirdropMerkleTree::new`. -/
def dedupNodes (input : List TreeNode) : Except String (List TreeNode) :=
  input.foldlM dedupInsert []

/-- `utils.rs` `get_max_total_claim`: checked sum of the node amounts,
panicking (error) on u64 overflow. -/
def get_max_total_claim (nodes : List TreeNode) : Except String Nat :=
  nodes.foldlM (fun acc n => checkedAddU64 acc n.amount) 0

/-- Modelled from the spec: `MerkleTree::new(&hashed_nodes, true)` (module
`merkle_tree`, not under `src/`) prefixes every item with the leaf domain
byte and combines layers upward; its root and the per-index proof extracted
by `utils.rs` `get_proof` via `find_path`. -/
def merkleLeaves (items : List HashV) : List HashV := items.map HashV.leaf

/-- Root of the internal tree over `items` (`MerkleTree::get_root`). -/
def get_root (items : List HashV) : Option HashV := rootOf (merkleLeaves items)

/-- `utils.rs` `get_proof`: sibling hashes along the path of leaf `i`. -/
def get_proof (items : List HashV) (i : Nat) : List HashV := proofOf (merkleLeaves items) i

/-- `airdrop_merkle_tree.rs` AirdropMerkleTree. -/
structure AirdropMerkleTree where
  merkle_root : HashV
  max_num_nodes : Nat
  max_total_claim : Nat
  tree_nodes : List TreeNode
deriving DecidableEq, Repr

/-- `AirdropMerkleTree::verify_proof`: recompute the internal tree from the
node hashes, panic (`assert_eq`, modelled as an error) if its root differs
from the stored root, then check every leaf, re-hashed with the `0x00`
domain byte, against the root with its freshly derived proof. -/
def AirdropMerkleTree.verify_proof (t : AirdropMerkleTree) : Except String Unit :=
  let hashed := t.tree_nodes.map TreeNode.hash
  match get_root hashed with
  | none => .error "invalid merkle proof"
  | some r =>
      if r = t.merkle_root then
        if (List.range hashed.length).all (fun i =>
            merkleVerify (get_proof hashed i) t.merkle_root (HashV.leaf (hashed.getD i dHash)))
        then .ok ()
        else .error "invalid merkle proof"
      else .error "assertion failed"

/-- `AirdropMerkleTree::validate`: node-count bound, length consistency, no
duplicate claimants (HashSet cardinality), checked amount sum against
`max_total_claim`, and `verify_proof`. -/
def AirdropMerkleTree.validate (t : AirdropMerkleTree) : Except String Unit :=
  if t.max_num_nodes > 2 ^ 32 - 1 then .error "max num nodes is greater than 2^32 - 1"
  else if t.tree_nodes.length ≠ t.max_num_nodes then .error "tree nodes length mismatch"
  else if (t.tree_nodes.map TreeNode.claimant).dedup.length ≠ t.tree_nodes.length then
    .error "Duplicate claimants found"
  else
    match get_max_total_claim t.tree_nodes with
    | .error e => .error e
    | .ok s =>
        if s ≠ t.max_total_claim then .error "tree nodes sum mismatch"
        else t.verify_proof

/-- The proof-attachment loop of `AirdropMerkleTree::new`: node `i` of the
de-duplicated list receives the proof for leaf `i` of the internal tree. -/
def attachProofs (deduped : List TreeNode) : List TreeNode :=
  deduped.enum.map
    (fun p => { p.2 with proof := some (get_proof (deduped.map TreeNode.hash) p.1) })

/-- `AirdropMerkleTree::new`: de-duplicate by claimant, hash the nodes, build
the internal tree, attach each node its proof, record node count and checked
total claim, extract the root (`MerkleRootError` when absent) and validate.
Each `?` / `ok_or` early return in the source is an explicit match here. -/
def AirdropMerkleTree.new (input : List TreeNode) : Except String AirdropMerkleTree :=
  match dedupNodes input with
  | .error e => .error e
  | .ok deduped =>
      let withProofs := attachProofs deduped
      match get_max_total_claim withProofs with
      | .error e => .error e
      | .ok maxTotal =>
          match get_root (deduped.map TreeNode.hash) with
          | none => .error "MerkleRootError"
          | some root =>
              let tree : AirdropMerkleTree := ⟨root, withProofs.length, maxTotal, withProofs⟩
              match tree.validate with
              | .error e => .error e
              | .ok _ => .ok tree

deriving instance DecidableEq for Except

/-! ### De-duplication: relating `AirdropMerkleTree::new` to the claimed
per-claimant summing description. -/

theorem exceptBind_ok {ε α β : Type} (a : α) (f : α → Except ε β) :
    (Except.ok a >>= f) = f a := rfl

theorem exceptBind_err {ε α β : Type} (e : ε) (f : α → Except ε β) :
    ((Except.error e : Except ε α) >>= f) = Except.error e := rfl

/-- Claimant/amount view of a node list. -/
def toPairs (l : List TreeNode) : List (Nat × Nat) := l.map (fun n => (n.claimant, n.amount))

/-- Total of the node amounts. -/
def sumAmounts (l : List TreeNode) : Nat := (l.map TreeNode.amount).sum

/-- Total of the pair amounts. -/
def sumPairs (l : List (Nat × Nat)) : Nat := (l.map Prod.snd).sum

/-- Claim-side single step: add the amount into the unique entry with the same
claimant, or append the pair. -/
def dedupStep (acc : List (Nat × Nat)) (p : Nat × Nat) : List (Nat × Nat) :=
  match acc with
  | [] => [p]
  | q :: rest => if q.1 = p.1 then (q.1, q.2 + p.2) :: rest else q :: dedupStep rest p

/-- Claim-side de-duplication: sum amounts per claimant, first-insertion order. -/
def dedupPairs (l : List (Nat × Nat)) : List (Nat × Nat) := l.foldl dedupStep []

/-- Claim-side list of distinct claimants in first-occurrence order. -/
def firstOccurrences (l : List Nat) : List Nat :=
  l.foldl (fun acc c => if c ∈ acc then acc else acc ++ [c]) []

theorem dedupStep_fst (acc : List (Nat × Nat)) (p : Nat × Nat) :
    (dedupStep acc p).map Prod.fst =
      if p.1 ∈ acc.map Prod.fst then acc.map Prod.fst else acc.map Prod.fst ++ [p.1] := by
  induction acc with
  | nil => simp [dedupStep]
  | cons q rest ih =>
      by_cases hq : q.1 = p.1
      · simp [dedupStep, hq]
      · have hne : ¬(p.1 = q.1) := fun h => hq h.symm
        simp only [dedupStep, if_neg hq, List.map_cons, ih, List.mem_cons]
        by_cases hmem : p.1 ∈ rest.map Prod.fst <;> simp [hmem, hne]

theorem dedupStep_sum (acc : List (Nat × Nat)) (p : Nat × Nat) :
    sumPairs (dedupStep acc p) = sumPairs acc + p.2 := by
  induction acc with
  | nil => simp [dedupStep, sumPairs]
  | cons q rest ih =>
      by_cases hq : q.1 = p.1
      · simp [dedupStep, hq, sumPairs]; omega
      · simp only [dedupStep, if_neg hq, sumPairs, List.map_cons, List.sum_cons] at ih ⊢
        omega

theorem foldl_dedupStep_fst (l : List (Nat × Nat)) :
    ∀ acc : List (Nat × Nat),
      (List.foldl dedupStep acc l).map Prod.fst =
        List.foldl (fun a c => if c ∈ a then a else a ++ [c]) (acc.map Prod.fst)
          (l.map Prod.fst) := by
  induction l with
  | nil => intro acc; simp
  | cons p rest ih =>
      intro acc
      simp only [List.foldl_cons, List.map_cons, ih (dedupStep acc p), dedupStep_fst]

theorem foldl_firstOcc_nodup (l : List Nat) :
    ∀ acc : List Nat, acc.Nodup →
      (List.foldl (fun a c => if c ∈ a then a else a ++ [c]) acc l).Nodup := by
  induction l with
  | nil => intro acc h; simpa using h
  | cons c rest ih =>
      intro acc h
      simp only [List.foldl_cons]
      by_cases hc : c ∈ acc
      · rw [if_pos hc]; exact ih acc h
      · rw [if_neg hc]
        refine ih (acc ++ [c]) ?_
        simp [List.nodup_append, h, hc]

theorem foldl_firstOcc_mem (l : List Nat) :
    ∀ (acc : List Nat) (x : Nat),
      (x ∈ List.foldl (fun a c => if c ∈ a then a else a ++ [c]) acc l ↔ x ∈ acc ∨ x ∈ l) := by
  induction l with
  | nil => intro acc x; simp
  | cons c rest ih =>
      intro acc x
      simp only [List.foldl_cons]
      by_cases hc : c ∈ acc
      · rw [if_pos hc, ih acc x]
        constructor
        · rintro (h | h)
          · exact Or.inl h
          · exact Or.inr (List.mem_cons_of_mem _ h)
        · rintro (h | h)
          · exact Or.inl h
          · rcases List.mem_cons.mp h with h | h
            · exact Or.inl (h ▸ hc)
            · exact Or.inr h
      · rw [if_neg hc, ih (acc ++ [c]) x]
        simp only [List.mem_append, List.mem_singleton, List.mem_cons]
        tauto

theorem firstOccurrences_nodup (l : List Nat) : (firstOccurrences l).Nodup :=
  foldl_firstOcc_nodup l [] List.nodup_nil

theorem firstOccurrences_mem (l : List Nat) (x : Nat) :
    x ∈ firstOccurrences l ↔ x ∈ l := by
  unfold firstOccurrences
  rw [foldl_firstOcc_mem l [] x]
  simp

theorem dedupPairs_fst (l : List (Nat × Nat)) :
    (dedupPairs l).map Prod.fst = firstOccurrences (l.map Prod.fst) := by
  unfold dedupPairs firstOccurrences
  simpa using foldl_dedupStep_fst l []

theorem foldl_dedupStep_sum (l : List (Nat × Nat)) :
    ∀ acc : List (Nat × Nat),
      sumPairs (List.foldl dedupStep acc l) = sumPairs acc + sumPairs l := by
  induction l with
  | nil => intro acc; simp [sumPairs]
  | cons p rest ih =>
      intro acc
      rw [List.foldl_cons, ih (dedupStep acc p), dedupStep_sum]
      simp only [sumPairs, List.map_cons, List.sum_cons]
      omega

theorem dedupPairs_sum (l : List (Nat × Nat)) : sumPairs (dedupPairs l) = sumPairs l := by
  unfold dedupPairs
  simpa [sumPairs] using foldl_dedupStep_sum l []

theorem sumPairs_toPairs (l : List TreeNode) : sumPairs (toPairs l) = sumAmounts l := by
  induction l with
  | nil => rfl
  | cons n rest ih => simp [toPairs, sumPairs, sumAmounts] at ih ⊢; omega

theorem amount_le_sumAmounts (m : TreeNode) (l : List TreeNode) (h : m ∈ l) :
    m.amount ≤ sumAmounts l := by
  induction l with
  | nil => simp at h
  | cons a rest ih =>
      rcases List.mem_cons.mp h with h | h
      · subst h; simp [sumAmounts]
      · have := ih h
        simp only [sumAmounts, List.map_cons, List.sum_cons] at this ⊢
        omega

theorem dedupInsert_ok (acc : List TreeNode) (n : TreeNode)
    (h : sumAmounts acc + n.amount < U64MOD) :
    ∃ acc2, dedupInsert acc n = .ok acc2 ∧
      toPairs acc2 = dedupStep (toPairs acc) (n.claimant, n.amount) ∧
      sumAmounts acc2 = sumAmounts acc + n.amount := by
  induction acc with
  | nil =>
      refine ⟨[n], rfl, ?_, ?_⟩ <;> simp [toPairs, dedupStep, sumAmounts]
  | cons m rest ih =>
      by_cases hm : m.claimant = n.claimant
      · have hbound : m.amount + n.amount < U64MOD := by
          have : m.amount ≤ sumAmounts (m :: rest) := amount_le_sumAmounts m _ (by simp)
          omega
        refine ⟨{ m with amount := m.amount + n.amount } :: rest, ?_, ?_, ?_⟩
        · simp [dedupInsert, hm, checkedAddU64, hbound, exceptBind_ok]
        · simp [toPairs, dedupStep, hm]
        · simp [sumAmounts]; omega
      · have hrest : sumAmounts rest + n.amount < U64MOD := by
          simp only [sumAmounts, List.map_cons, List.sum_cons] at h ⊢; omega
        obtain ⟨rest2, hr1, hr2, hr3⟩ := ih hrest
        refine ⟨m :: rest2, ?_, ?_, ?_⟩
        · simp [dedupInsert, hm, hr1, exceptBind_ok]
        · simpa [toPairs, dedupStep, hm] using hr2
        · simp only [sumAmounts, List.map_cons, List.sum_cons] at hr3 ⊢; omega

theorem foldlM_dedupInsert_ok (input : List TreeNode) :
    ∀ acc : List TreeNode, sumAmounts acc + sumAmounts input < U64MOD →
      ∃ out, List.foldlM dedupInsert acc input = .ok out ∧
        toPairs out = List.foldl dedupStep (toPairs acc) (toPairs input) ∧
        sumAmounts out = sumAmounts acc + sumAmounts input := by
  induction input with
  | nil =>
      intro acc _
      exact ⟨acc, rfl, by simp [toPairs], by simp [sumAmounts]⟩
  | cons n rest ih =>
      intro acc h
      have hn : sumAmounts acc + n.amount < U64MOD := by
        simp only [sumAmounts, List.map_cons, List.sum_cons] at h ⊢; omega
      obtain ⟨acc2, h1, h2, h3⟩ := dedupInsert_ok acc n hn
      have h4 : sumAmounts acc2 + sumAmounts rest < U64MOD := by
        simp only [sumAmounts, List.map_cons, List.sum_cons] at h h3 ⊢; omega
      obtain ⟨out, g1, g2, g3⟩ := ih acc2 h4
      refine ⟨out, ?_, ?_, ?_⟩
      · rw [List.foldlM_cons, h1, exceptBind_ok]; exact g1
      · rw [g2, h2]; simp [toPairs]
      · simp only [sumAmounts, List.map_cons, List.sum_cons] at g3 h3 ⊢; omega

theorem dedupNodes_ok (input : List TreeNode) (h : sumAmounts input < U64MOD) :
    ∃ out, dedupNodes input = .ok out ∧
      toPairs out = dedupPairs (toPairs input) ∧
      sumAmounts out = sumAmounts input := by
  obtain ⟨out, h1, h2, h3⟩ := foldlM_dedupInsert_ok input [] (by simpa [sumAmounts])
  exact ⟨out, h1, by simpa [toPairs, dedupPairs] using h2, by simpa [sumAmounts] using h3⟩

theorem foldlM_checkedAdd_ok (l : List TreeNode) :
    ∀ acc : Nat, acc + sumAmounts l < U64MOD →
      List.foldlM (fun a n => checkedAddU64 a n.amount) acc l = .ok (acc + sumAmounts l) := by
  induction l with
  | nil =>
      intro acc _
      simp only [List.foldlM_nil, sumAmounts, List.map_nil, List.sum_nil, Nat.add_zero]
      rfl
  | cons n rest ih =>
      intro acc h
      have hn : acc + n.amount < U64MOD := by
        simp only [sumAmounts, List.map_cons, List.sum_cons] at h; omega
      have hrec := ih (acc + n.amount) (by
        simp only [sumAmounts, List.map_cons, List.sum_cons] at h ⊢; omega)
      have hstep : checkedAddU64 acc n.amount = .ok (acc + n.amount) := by
        simp [checkedAddU64, hn]
      rw [List.foldlM_cons, hstep, exceptBind_ok, hrec]
      congr 1
      simp only [sumAmounts, List.map_cons, List.sum_cons]
      omega

theorem get_max_total_claim_ok (l : List TreeNode) (h : sumAmounts l < U64MOD) :
    get_max_total_claim l = .ok (sumAmounts l) := by
  simpa using foldlM_checkedAdd_ok l 0 (by simpa)

/-! ### Round-trip and construction lemmas. -/

theorem getD_map_of_lt {α β : Type} (f : α → β) (l : List α) (i : Nat) (d : β) (d2 : α)
    (h : i < l.length) : (l.map f).getD i d = f (l.getD i d2) := by
  induction l generalizing i with
  | nil => simp at h
  | cons a rest ih =>
      cases i with
      | zero => simp
      | succ k => simpa using ih k (by simpa using h)

theorem rootOfAux_isSome : ∀ (fuel : Nat) (l : List HashV), l ≠ [] → l.length ≤ fuel →
    (rootOfAux fuel l).isSome
  | _, [], h, _ => absurd rfl h
  | 0, [a], _, _ => by simp [rootOfAux]
  | fuel + 1, [a], _, _ => by simp [rootOfAux]
  | 0, a :: b :: rest, _, hf => by simp only [List.length_cons] at hf; omega
  | fuel + 1, a :: b :: rest, _, hf => by
      rw [rootOfAux]
      apply rootOfAux_isSome
      · intro hnil
        have hl := levelUp_length (a :: b :: rest)
        rw [hnil] at hl
        simp only [List.length_nil, List.length_cons] at hl
        omega
      · have hl := levelUp_length (a :: b :: rest)
        rw [hl]
        simp only [List.length_cons] at hf ⊢
        omega

theorem rootOf_isSome (l : List HashV) (h : l ≠ []) : (rootOf l).isSome :=
  rootOfAux_isSome l.length l h (Nat.le_refl _)

/-- Every in-range leaf of the internal tree verifies with its derived proof. -/
theorem merkleVerify_get_proof (items : List HashV) (r : HashV) (i : Nat)
    (hr : get_root items = some r) (hi : i < items.length) :
    merkleVerify (get_proof items i) r (HashV.leaf (items.getD i dHash)) = true := by
  have hlen : i < (merkleLeaves items).length := by simpa [merkleLeaves] using hi
  have hr2 : rootOf (merkleLeaves items) = some r := hr
  have hfold := merkle_roundtrip (merkleLeaves items) i r hr2 hlen
  have hgd : (merkleLeaves items).getD i dHash = HashV.leaf (items.getD i dHash) :=
    getD_map_of_lt HashV.leaf items i dHash dHash hi
  unfold merkleVerify get_proof
  rw [← hgd, hfold]
  simp

theorem enumFrom_map_getD (g : Nat × TreeNode → TreeNode) (l : List TreeNode) :
    ∀ (s i : Nat), i < l.length →
      ((List.enumFrom s l).map g).getD i default = g (s + i, l.getD i default) := by
  induction l with
  | nil => intro s i h; simp at h
  | cons a rest ih =>
      intro s i h
      cases i with
      | zero => simp [List.enumFrom]
      | succ k =>
          have := ih (s + 1) k (by simpa using h)
          simp only [List.enumFrom, List.map_cons, List.getD_cons_succ]
          rw [this]
          congr 2
          omega

theorem toPairs_enumFrom_map (g : Nat × TreeNode → TreeNode)
    (hg : ∀ p, (g p).claimant = p.2.claimant ∧ (g p).amount = p.2.amount) (l : List TreeNode) :
    ∀ s : Nat, toPairs ((List.enumFrom s l).map g) = toPairs l := by
  induction l with
  | nil => intro s; rfl
  | cons a rest ih =>
      intro s
      simp only [List.enumFrom, List.map_cons, toPairs]
      rw [(hg (s, a)).1, (hg (s, a)).2]
      have := ih (s + 1)
      simp only [toPairs] at this
      rw [this]

theorem claimants_toPairs (l : List TreeNode) :
    (toPairs l).map Prod.fst = l.map TreeNode.claimant := by
  simp [toPairs, List.map_map]

theorem hashes_toPairs (l : List TreeNode) :
    l.map TreeNode.hash = (toPairs l).map (fun p => HashV.data p.1 p.2) := by
  simp only [toPairs, List.map_map]
  rfl

theorem length_toPairs (l : List TreeNode) : (toPairs l).length = l.length := by
  simp [toPairs]

theorem sumAmounts_eq_sumPairs (l : List TreeNode) : sumAmounts l = sumPairs (toPairs l) :=
  (sumPairs_toPairs l).symm

/-- Validation succeeds for a well-formed constructed tree. -/
theorem validate_ok_of (nodesL : List TreeNode) (r : HashV) (mt : Nat)
    (hnodup : (nodesL.map TreeNode.claimant).Nodup)
    (hbound : nodesL.length ≤ 2 ^ 32 - 1)
    (hsum : get_max_total_claim nodesL = .ok mt)
    (hroot : get_root (nodesL.map TreeNode.hash) = some r) :
    AirdropMerkleTree.validate ⟨r, nodesL.length, mt, nodesL⟩ = .ok () := by
  have hall : (List.range (nodesL.map TreeNode.hash).length).all (fun i =>
      merkleVerify (get_proof (nodesL.map TreeNode.hash) i) r
        (HashV.leaf ((nodesL.map TreeNode.hash).getD i dHash))) = true := by
    rw [List.all_eq_true]
    intro i hi
    exact merkleVerify_get_proof (nodesL.map TreeNode.hash) r i hroot (List.mem_range.mp hi)
  unfold AirdropMerkleTree.validate
  rw [if_neg (by simpa using Nat.not_lt.mpr hbound)]
  rw [if_neg (by simp)]
  rw [if_neg (by simp [List.dedup_eq_self.mpr hnodup])]
  rw [hsum]
  dsimp only
  rw [if_neg (by simp)]
  unfold AirdropMerkleTree.verify_proof
  dsimp only
  rw [hroot]
  dsimp only
  rw [if_pos rfl]
  rw [if_pos hall]

theorem toPairs_attachProofs (l : List TreeNode) : toPairs (attachProofs l) = toPairs l := by
  unfold attachProofs
  exact toPairs_enumFrom_map
    (fun p => { p.2 with proof := some (get_proof (l.map TreeNode.hash) p.1) })
    (fun p => ⟨rfl, rfl⟩) l 0

theorem length_attachProofs (l : List TreeNode) : (attachProofs l).length = l.length := by
  have := congrArg List.length (toPairs_attachProofs l)
  simpa [length_toPairs] using this

theorem attachProofs_getD (l : List TreeNode) (i : Nat) (h : i < l.length) :
    (attachProofs l).getD i default =
      { l.getD i default with proof := some (get_proof (l.map TreeNode.hash) i) } := by
  unfold attachProofs
  have := enumFrom_map_getD
    (fun p => { p.2 with proof := some (get_proof (l.map TreeNode.hash) p.1) }) l 0 i h
  simpa using this

theorem hashes_attachProofs (l : List TreeNode) :
    (attachProofs l).map TreeNode.hash = l.map TreeNode.hash := by
  rw [hashes_toPairs, hashes_toPairs l, toPairs_attachProofs]

/-- Success-shape inversion for `AirdropMerkleTree::new`. -/
theorem new_ok_inv (input : List TreeNode) (t : AirdropMerkleTree)
    (h : AirdropMerkleTree.new input = .ok t) :
    ∃ deduped, dedupNodes input = .ok deduped ∧
      t.tree_nodes = attachProofs deduped ∧
      get_root (deduped.map TreeNode.hash) = some t.merkle_root := by
  unfold AirdropMerkleTree.new at h
  cases hd : dedupNodes input with
  | error e => rw [hd] at h; simp at h
  | ok deduped =>
      rw [hd] at h
      dsimp only at h
      cases hm : get_max_total_claim (attachProofs deduped) with
      | error e => rw [hm] at h; simp at h
      | ok maxTotal =>
          rw [hm] at h
          dsimp only at h
          cases hr : get_root (deduped.map TreeNode.hash) with
          | none => rw [hr] at h; simp at h
          | some root =>
              rw [hr] at h
              dsimp only at h
              cases hv : AirdropMerkleTree.validate
                  ⟨root, (attachProofs deduped).length, maxTotal, attachProofs deduped⟩ with
              | error e => rw [hv] at h; simp at h
              | ok u =>
                  rw [hv] at h
                  dsimp only at h
                  injection h with h2
                  subst h2
                  exact ⟨deduped, rfl, rfl, hr⟩

/-- Success of `AirdropMerkleTree::new` with the claimed shape of the result. -/
theorem new_ok_forward (input : List TreeNode)
    (h1 : input ≠ []) (h2 : sumAmounts input < U64MOD)
    (h3 : (firstOccurrences (input.map TreeNode.claimant)).length ≤ 2 ^ 32 - 1) :
    ∃ t, AirdropMerkleTree.new input = .ok t ∧
      toPairs t.tree_nodes = dedupPairs (toPairs input) ∧
      t.max_num_nodes = (firstOccurrences (input.map TreeNode.claimant)).length ∧
      t.max_total_claim = sumAmounts input := by
  obtain ⟨deduped, hd, hdp, hds⟩ := dedupNodes_ok input h2
  have hWPp : toPairs (attachProofs deduped) = dedupPairs (toPairs input) := by
    rw [toPairs_attachProofs, hdp]
  have hclaim : (attachProofs deduped).map TreeNode.claimant =
      firstOccurrences (input.map TreeNode.claimant) := by
    rw [← claimants_toPairs, hWPp, dedupPairs_fst, claimants_toPairs]
  have hnodup : ((attachProofs deduped).map TreeNode.claimant).Nodup := by
    rw [hclaim]; exact firstOccurrences_nodup _
  have hlen : (attachProofs deduped).length =
      (firstOccurrences (input.map TreeNode.claimant)).length := by
    have := congrArg List.length hclaim
    simpa using this
  have hsumWP : sumAmounts (attachProofs deduped) = sumAmounts input := by
    rw [sumAmounts_eq_sumPairs, hWPp, dedupPairs_sum, sumPairs_toPairs]
  have hmax : get_max_total_claim (attachProofs deduped) = .ok (sumAmounts input) := by
    rw [← hsumWP]
    exact get_max_total_claim_ok _ (by rw [hsumWP]; exact h2)
  have hne : deduped ≠ [] := by
    intro hnil
    have hfo : firstOccurrences (input.map TreeNode.claimant) = [] := by
      rw [← hclaim]
      unfold attachProofs
      rw [hnil]
      rfl
    cases hin : input.map TreeNode.claimant with
    | nil => exact h1 (List.map_eq_nil_iff.mp hin)
    | cons c cs =>
        have : c ∈ firstOccurrences (input.map TreeNode.claimant) :=
          (firstOccurrences_mem _ c).mpr (by rw [hin]; exact List.mem_cons_self c cs)
        rw [hfo] at this
        simp at this
  have hneh : merkleLeaves (deduped.map TreeNode.hash) ≠ [] := by
    intro hc
    apply hne
    have := congrArg List.length hc
    simpa [merkleLeaves] using this
  obtain ⟨r, hroot⟩ := Option.isSome_iff_exists.mp (rootOf_isSome _ hneh)
  have hroot2 : get_root (deduped.map TreeNode.hash) = some r := hroot
  have hval := validate_ok_of (attachProofs deduped) r (sumAmounts input)
    hnodup (hlen ▸ h3) hmax (by rw [hashes_attachProofs]; exact hroot2)
  refine ⟨⟨r, (attachProofs deduped).length, sumAmounts input, attachProofs deduped⟩, ?_, hWPp,
    by simpa using hlen, rfl⟩
  unfold AirdropMerkleTree.new
  rw [hd]
  dsimp only
  rw [hmax]
  dsimp only
  rw [hroot2]
  dsimp only
  rw [hval]

/-- C3: `AirdropMerkleTree::new` de-duplicates inputs by claimant, summing the
amounts of equal claimants in first-insertion order (`dedupPairs` is that
description taken from the claim), sets `max_num_nodes` to the number of
distinct claimants and `max_total_claim` to the sum of all input amounts.
Repeated construction from the same inputs is literally the same function
application, so the root is stable.  Hypotheses: u64 amounts do not overflow
(the claim allows failure there), the input is nonempty and the distinct
claimant count fits the `2^32 - 1` validation bound. -/
theorem C3_new_dedupes_sums_and_totals (input : List TreeNode)
    (h1 : input ≠ []) (h2 : sumAmounts input < U64MOD)
    (h3 : (firstOccurrences (input.map TreeNode.claimant)).length ≤ 2 ^ 32 - 1) :
    ∃ t, AirdropMerkleTree.new input = .ok t ∧
      toPairs t.tree_nodes = dedupPairs (toPairs input) ∧
      t.max_num_nodes = (input.map TreeNode.claimant).toFinset.card ∧
      t.max_total_claim = sumAmounts input := by
  obtain ⟨t, ht, hp, hn, hm⟩ := new_ok_forward input h1 h2 h3
  refine ⟨t, ht, hp, ?_, hm⟩
  rw [hn]
  have hnd := firstOccurrences_nodup (input.map TreeNode.claimant)
  have hcard := List.toFinset_card_of_nodup hnd
  rw [← hcard]
  congr 1
  apply Finset.ext
  intro x
  simp [List.mem_toFinset, firstOccurrences_mem]

/-- Concrete input of the C3 scenario: claimants A=1, B=2, C=3. -/
def exInput3 : List TreeNode := [⟨1, none, 10⟩, ⟨2, none, 1⟩, ⟨1, none, 11⟩, ⟨3, none, 0⟩]

/-- Witness for C3 at the spec scenario: hypotheses hold and the deduped view
is `[(A,21),(B,1),(C,0)]` with `max_num_nodes = 3`, `max_total_claim = 22`. -/
theorem C3_witness :
    (exInput3 ≠ [] ∧ sumAmounts exInput3 < U64MOD ∧
      (firstOccurrences (exInput3.map TreeNode.claimant)).length ≤ 2 ^ 32 - 1) ∧
    (∃ t, AirdropMerkleTree.new exInput3 = .ok t ∧
      toPairs t.tree_nodes = dedupPairs (toPairs exInput3) ∧
      t.max_num_nodes = (exInput3.map TreeNode.claimant).toFinset.card ∧
      t.max_total_claim = sumAmounts exInput3) ∧
    ((AirdropMerkleTree.new exInput3).map
        (fun t => (toPairs t.tree_nodes, t.max_num_nodes, t.max_total_claim)) =
      .ok ([(1, 21), (2, 1), (3, 0)], 3, 22)) ∧
    ((AirdropMerkleTree.new exInput3).map (fun t => t.verify_proof) = .ok (.ok ())) :=
  ⟨⟨by decide, by decide, by decide⟩,
    C3_new_dedupes_sums_and_totals exInput3 (by decide) (by decide) (by decide),
    by decide, by decide⟩

/-- C4: for every tree successfully built by `AirdropMerkleTree::new` and every
index `i`, the `i`-th node carries a proof, and verifying the `i`-th leaf hash
re-hashed with the `0x00` domain byte against the tree root with that attached
proof succeeds. -/
theorem C4_merkle_roundtrip (input : List TreeNode) (t : AirdropMerkleTree)
    (h : AirdropMerkleTree.new input = .ok t) (i : Nat) (hi : i < t.tree_nodes.length) :
    ∃ p, (t.tree_nodes.getD i default).proof = some p ∧
      merkleVerify p t.merkle_root
        (HashV.leaf (TreeNode.hash (t.tree_nodes.getD i default))) = true := by
  obtain ⟨deduped, hd, hWP, hroot⟩ := new_ok_inv input t h
  have hlen : t.tree_nodes.length = deduped.length := by rw [hWP, length_attachProofs]
  have hi2 : i < deduped.length := hlen ▸ hi
  have hgd := attachProofs_getD deduped i hi2
  refine ⟨get_proof (deduped.map TreeNode.hash) i, ?_, ?_⟩
  · rw [hWP, hgd]
  · rw [hWP, hgd]
    have hitems : (deduped.map TreeNode.hash).getD i dHash = (deduped.getD i default).hash :=
      getD_map_of_lt TreeNode.hash deduped i dHash default hi2
    have hsame : TreeNode.hash
        { deduped.getD i default with
          proof := some (get_proof (deduped.map TreeNode.hash) i) } =
        (deduped.getD i default).hash := rfl
    rw [hsame, ← hitems]
    exact merkleVerify_get_proof (deduped.map TreeNode.hash) t.merkle_root i hroot
      (by simpa using hi2)

/-- The tree built from the single node (claimant 1, amount 7). -/
def exTree1 : AirdropMerkleTree :=
  ⟨HashV.leaf (HashV.data 1 7), 1, 7, [⟨1, some [], 7⟩]⟩

/-- Witness for C4 on a concrete one-node tree. -/
theorem C4_witness :
    AirdropMerkleTree.new [⟨1, none, 7⟩] = .ok exTree1 ∧ 0 < exTree1.tree_nodes.length ∧
      ∃ p, (exTree1.tree_nodes.getD 0 default).proof = some p ∧
        merkleVerify p exTree1.merkle_root
          (HashV.leaf (TreeNode.hash (exTree1.tree_nodes.getD 0 default))) = true :=
  ⟨by decide, by decide,
    C4_merkle_roundtrip [⟨1, none, 7⟩] exTree1 (by decide) 0 (by decide)⟩

/-! ## bam-writer-service: delegation criteria

From `src/bam-writer-service/src/bam_delegation_criteria.rs` and the
`BamEpochMetrics` model in `src/core/src/db_models/bam_epoch_metrics.rs`
(the wall-clock `timestamp` field is not modelled). -/

def BASIS_POINTS_MAX : Nat := 10000

/-- `BamEpochMetrics` document (field order as in the source). -/
structure BamEpochMetrics where
  allocation_bps : Nat
  available_bam_delegation_stake : Nat
  bam_stake : Nat
  eligible_bam_validator_count : Nat
  epoch : Nat
  jitosol_stake : Nat
  total_stake : Nat
deriving DecidableEq, Repr

/-- `BamEpochMetrics::new`: allocation and available stake start at zero. -/
def BamEpochMetrics.mkNew (epoch bam_stake total_stake jitosol_stake count : Nat) :
    BamEpochMetrics :=
  ⟨0, 0, bam_stake, count, epoch, jitosol_stake, total_stake⟩

/-- `calculate_bam_stakeweight`: `bam * 10_000 / total` in u128 (exact for u64
inputs), `None` on zero total, final `as u64` truncation. -/
def calculate_bam_stakeweight (bam_sol_stake total_sol_stake : Nat) : Option Nat :=
  if total_sol_stake = 0 then none
  else some ((bam_sol_stake * BASIS_POINTS_MAX / total_sol_stake) % U64MOD)

/-- The JIP-28 tier table `(stakeweight_threshold_bps, allocation_bps)`. -/
def tiers : List (Nat × Nat) :=
  [(0, 2000), (2000, 3000), (2500, 4000), (3000, 5000), (3500, 7000), (4000, 10000)]

/-- `calculate_current_allocation`: initial 2_000 bps without a previous-epoch
metric, otherwise the highest tier whose threshold both stakeweights meet
(`.rev().find(..)`), with the source's (unreachable) 2_000 fallback. -/
def calculate_current_allocation (cur : BamEpochMetrics) (prev : Option BamEpochMetrics) :
    Nat :=
  let current_sw := (calculate_bam_stakeweight cur.bam_stake cur.total_stake).getD 0
  match prev with
  | none => 2000
  | some p =>
      let prev_sw := (calculate_bam_stakeweight p.bam_stake p.total_stake).getD 0
      ((tiers.reverse.find? (fun t =>
          decide (t.1 ≤ current_sw) && decide (t.1 ≤ prev_sw))).map Prod.snd).getD 2000

/-- `calculate_available_delegation`: u128 `jitosol * bps / 10_000` (exact for
u64 inputs; the u128 saturations cannot trigger), truncated by `as u64`. -/
def calculate_available_delegation (allocation_bps total_jitosol_tvl : Nat) : Nat :=
  (total_jitosol_tvl * allocation_bps / BASIS_POINTS_MAX) % U64MOD

/-- Claim-side tier table: the allocation of the highest tier whose threshold
both stakeweights meet. -/
def tierAllocation (a b : Nat) : Nat :=
  if 4000 ≤ a ∧ 4000 ≤ b then 10000
  else if 3500 ≤ a ∧ 3500 ≤ b then 7000
  else if 3000 ≤ a ∧ 3000 ≤ b then 5000
  else if 2500 ≤ a ∧ 2500 ≤ b then 4000
  else if 2000 ≤ a ∧ 2000 ≤ b then 3000
  else 2000

theorem tiers_reverse_eval :
    tiers.reverse = [(4000, 10000), (3500, 7000), (3000, 5000), (2500, 4000), (2000, 3000),
      (0, 2000)] := by decide

theorem find_tier_eq_tierAllocation (a b : Nat) :
    ((tiers.reverse.find? (fun t => decide (t.1 ≤ a) && decide (t.1 ≤ b))).map
      Prod.snd).getD 2000 = tierAllocation a b := by
  rw [tiers_reverse_eval]
  unfold tierAllocation
  by_cases h40 : 4000 ≤ a ∧ 4000 ≤ b
  · rw [List.find?_cons_of_pos _ (by simp [h40.1, h40.2])]
    simp [h40]
  · rw [List.find?_cons_of_neg _ (by simp; omega)]
    rw [if_neg h40]
    by_cases h35 : 3500 ≤ a ∧ 3500 ≤ b
    · rw [List.find?_cons_of_pos _ (by simp [h35.1, h35.2])]
      simp [h35]
    · rw [List.find?_cons_of_neg _ (by simp; omega)]
      rw [if_neg h35]
      by_cases h30 : 3000 ≤ a ∧ 3000 ≤ b
      · rw [List.find?_cons_of_pos _ (by simp [h30.1, h30.2])]
        simp [h30]
      · rw [List.find?_cons_of_neg _ (by simp; omega)]
        rw [if_neg h30]
        by_cases h25 : 2500 ≤ a ∧ 2500 ≤ b
        · rw [List.find?_cons_of_pos _ (by simp [h25.1, h25.2])]
          simp [h25]
        · rw [List.find?_cons_of_neg _ (by simp; omega)]
          rw [if_neg h25]
          by_cases h20 : 2000 ≤ a ∧ 2000 ≤ b
          · rw [List.find?_cons_of_pos _ (by simp [h20.1, h20.2])]
            simp [h20]
          · rw [List.find?_cons_of_neg _ (by simp; omega)]
            rw [if_neg h20]
            rw [List.find?_cons_of_pos _ (by simp)]
            simp

theorem stakeweight_of_le (bam total : Nat) (h1 : bam ≤ total) (h2 : 0 < total) :
    calculate_bam_stakeweight bam total = some (bam * 10000 / total) := by
  unfold calculate_bam_stakeweight
  rw [if_neg (by omega)]
  congr 1
  have hle : bam * BASIS_POINTS_MAX / total ≤ BASIS_POINTS_MAX := by
    have hmul : bam * BASIS_POINTS_MAX ≤ total * BASIS_POINTS_MAX :=
      Nat.mul_le_mul_right _ h1
    calc bam * BASIS_POINTS_MAX / total ≤ total * BASIS_POINTS_MAX / total :=
          Nat.div_le_div_right hmul
      _ = BASIS_POINTS_MAX := by
          rw [Nat.mul_comm]
          exact Nat.mul_div_cancel _ h2
  have : bam * BASIS_POINTS_MAX / total < U64MOD := by
    have : (BASIS_POINTS_MAX : Nat) < U64MOD := by decide
    omega
  rw [Nat.mod_eq_of_lt this]
  rfl

/-- C5: with both totals positive and BAM stake at most the total (as holds for
the sums the run computes), the allocation is the highest tier whose threshold
is met by both `floor(bam·10_000/total)` stakeweights, and a missing previous
epoch forces 2_000 bps. -/
theorem C5_two_epoch_hysteresis (cur prev : BamEpochMetrics)
    (hc1 : cur.bam_stake ≤ cur.total_stake) (hc2 : 0 < cur.total_stake)
    (hp1 : prev.bam_stake ≤ prev.total_stake) (hp2 : 0 < prev.total_stake) :
    calculate_current_allocation cur none = 2000 ∧
    calculate_current_allocation cur (some prev) =
      tierAllocation (cur.bam_stake * 10000 / cur.total_stake)
        (prev.bam_stake * 10000 / prev.total_stake) := by
  constructor
  · rfl
  · unfold calculate_current_allocation
    simp only [stakeweight_of_le _ _ hc1 hc2, stakeweight_of_le _ _ hp1 hp2, Option.getD_some]
    exact find_tier_eq_tierAllocation _ _

/-- Witness for C5 at the spec scenarios: 25 % stakeweight in both epochs gives
4000 bps; 25 % current with 20 % previous gives 3000 bps; no previous epoch
gives 2000 bps. -/
theorem C5_witness :
    ((100000000 : Nat) ≤ 400000000 ∧ (0 : Nat) < 400000000) ∧
    (calculate_current_allocation (BamEpochMetrics.mkNew 100 100000000 400000000 10000000 10)
        none = 2000 ∧
      calculate_current_allocation (BamEpochMetrics.mkNew 100 100000000 400000000 10000000 10)
        (some (BamEpochMetrics.mkNew 99 100000000 400000000 10000000 10)) =
        tierAllocation (100000000 * 10000 / 400000000) (100000000 * 10000 / 400000000)) ∧
    calculate_current_allocation (BamEpochMetrics.mkNew 100 100000000 400000000 10000000 10)
      (some (BamEpochMetrics.mkNew 99 100000000 400000000 10000000 10)) = 4000 ∧
    calculate_current_allocation (BamEpochMetrics.mkNew 100 100000000 400000000 10000000 10)
      (some (BamEpochMetrics.mkNew 99 80000000 400000000 10000000 10)) = 3000 :=
  ⟨⟨by decide, by decide⟩,
    C5_two_epoch_hysteresis (BamEpochMetrics.mkNew 100 100000000 400000000 10000000 10)
      (BamEpochMetrics.mkNew 99 100000000 400000000 10000000 10)
      (by decide) (by decide) (by decide) (by decide),
    by decide, by decide⟩

/-! ## bam-writer-service: tail of `BamWriterService::run`

From `src/bam-writer-service/src/lib.rs` (lines 379-444): building the
epoch metrics, choosing allocation/available (override or tier
computation), computing `delegation_per_validator` and upserting the
metrics.  The chain/API fetches and the per-validator upsert earlier in
`run` are summarised by the aggregate inputs below, exactly the values
the tail consumes. -/

structure RunTailInputs where
  epoch : Nat
  bam_stake : Nat
  total_stake : Nat
  jitosol_stake : Nat
  eligible_count : Nat
  prev_metrics : Option BamEpochMetrics
  override_delegation : Option Nat
deriving DecidableEq, Repr

/-- Rust u64 division, panicking on a zero divisor. -/
def checkedDivU64 (a b : Nat) : Except String Nat :=
  if b = 0 then .error "attempt to divide by zero" else .ok (a / b)

/-- `BamEpochMetricsStore::upsert`: replace the record with the same epoch or
insert a new one. -/
def upsertMetrics (store : List BamEpochMetrics) (m : BamEpochMetrics) :
    List BamEpochMetrics :=
  if store.any (fun x => x.epoch == m.epoch)
  then store.map (fun x => if x.epoch == m.epoch then m else x)
  else store ++ [m]

/-- Tail of `BamWriterService::run`: returns the updated metrics store and the
computed `delegation_per_validator`, or the panic the run dies with.  The
override branch stores allocation 0 and `override * count` (u64 wrap-around of
the unchecked multiplication in release mode); `unwrap_or`[Rust] evaluates its
argument unconditionally, so `available / eligible_count` is computed before
the override is consulted, and the upsert only happens afterwards. -/
def bamWriterRunTail (store : List BamEpochMetrics) (inp : RunTailInputs) :
    Except String (List BamEpochMetrics × Nat) :=
  let current0 := BamEpochMetrics.mkNew inp.epoch inp.bam_stake inp.total_stake
    inp.jitosol_stake inp.eligible_count
  let alloc_avail : Nat × Nat :=
    match inp.override_delegation with
    | some ov => (0, (ov * inp.eligible_count) % U64MOD)
    | none =>
        let allocation := calculate_current_allocation current0 inp.prev_metrics
        (allocation, calculate_available_delegation allocation inp.jitosol_stake)
  let current := { current0 with
    allocation_bps := alloc_avail.1
    available_bam_delegation_stake := alloc_avail.2 }
  match checkedDivU64 alloc_avail.2 inp.eligible_count with
  | .error e => .error e
  | .ok q =>
      let dpv := inp.override_delegation.getD q
      .ok (upsertMetrics store current, dpv)

/-- Every allocation the tier computation yields is one of the table values,
hence at most 10_000 bps. -/
theorem allocation_le_10000 (cur : BamEpochMetrics) (prev : Option BamEpochMetrics) :
    calculate_current_allocation cur prev ≤ 10000 := by
  unfold calculate_current_allocation
  cases prev with
  | none => simp
  | some p =>
      dsimp only
      rw [find_tier_eq_tierAllocation]
      unfold tierAllocation
      split_ifs <;> omega

/-- C10: whenever the set of eligible BAM validators is empty, the run panics
with a division by zero while computing `delegation_per_validator` — even when
the fixed per-validator override is set, because Rust evaluates the
`unwrap_or` argument unconditionally — and therefore returns before the
`BamEpochMetrics` upsert (the error result carries no store update). -/
theorem C10_empty_eligible_panics (store : List BamEpochMetrics) (inp : RunTailInputs)
    (h : inp.eligible_count = 0) :
    bamWriterRunTail store inp = .error "attempt to divide by zero" := by
  unfold bamWriterRunTail checkedDivU64
  rw [h]
  simp

/-- Witness for C10: empty eligible set with the override active still panics. -/
theorem C10_witness :
    (RunTailInputs.mk 100 0 400 10000 0 none (some 5)).eligible_count = 0 ∧
    bamWriterRunTail [] (RunTailInputs.mk 100 0 400 10000 0 none (some 5)) =
      .error "attempt to divide by zero" :=
  ⟨by decide, C10_empty_eligible_panics [] _ (by decide)⟩

/-- Concrete run-tail input with the fixed per-validator override active. -/
def exInp6 : RunTailInputs := ⟨10, 0, 100, 10000, 1, none, some 5⟩

/-- The metrics record `exInp6` persists: allocation 0, available 5. -/
def exM6 : BamEpochMetrics := ⟨0, 5, 0, 1, 10, 10000, 100⟩

/-- Counterexample to C6 as stated: with the override active the stored record
has `available_bam_delegation_stake = 5` but
`floor(jitosol_stake * allocation_bps / 10_000) = floor(10000 * 0 / 10000) = 0`. -/
theorem C6_counterexample :
    bamWriterRunTail [] exInp6 = .ok ([exM6], 5) ∧
    exM6.available_bam_delegation_stake ≠
      exM6.jitosol_stake * exM6.allocation_bps / 10000 := by
  constructor
  · decide
  · decide

/-- C6 (amended): for every metrics record persisted by a run without the
fixed per-validator delegation override, the stored available stake equals
`floor(jitosol_stake * allocation_bps / 10_000)`. -/
theorem C6_available_matches_allocation (store : List BamEpochMetrics) (inp : RunTailInputs)
    (hov : inp.override_delegation = none) (hjs : inp.jitosol_stake < U64MOD)
    (out : List BamEpochMetrics × Nat) (h : bamWriterRunTail store inp = .ok out) :
    ∃ m, out.1 = upsertMetrics store m ∧ m.epoch = inp.epoch ∧
      m.jitosol_stake = inp.jitosol_stake ∧
      m.available_bam_delegation_stake =
        m.jitosol_stake * m.allocation_bps / 10000 := by
  unfold bamWriterRunTail at h
  rw [hov] at h
  dsimp only at h
  set alloc := calculate_current_allocation
    (BamEpochMetrics.mkNew inp.epoch inp.bam_stake inp.total_stake inp.jitosol_stake
      inp.eligible_count) inp.prev_metrics with halloc
  have hle : alloc ≤ 10000 := allocation_le_10000 _ _
  have havail : calculate_available_delegation alloc inp.jitosol_stake =
      inp.jitosol_stake * alloc / 10000 := by
    unfold calculate_available_delegation
    have hdivle : inp.jitosol_stake * alloc / BASIS_POINTS_MAX ≤ inp.jitosol_stake := by
      have h1 : inp.jitosol_stake * alloc ≤ inp.jitosol_stake * BASIS_POINTS_MAX :=
        Nat.mul_le_mul_left _ hle
      have h2 : inp.jitosol_stake * BASIS_POINTS_MAX / BASIS_POINTS_MAX =
          inp.jitosol_stake := Nat.mul_div_cancel _ (by decide)
      calc inp.jitosol_stake * alloc / BASIS_POINTS_MAX
          ≤ inp.jitosol_stake * BASIS_POINTS_MAX / BASIS_POINTS_MAX :=
            Nat.div_le_div_right h1
        _ = inp.jitosol_stake := h2
    rw [Nat.mod_eq_of_lt (by omega)]
    rfl
  cases hdiv : checkedDivU64 (calculate_available_delegation alloc inp.jitosol_stake)
      inp.eligible_count with
  | error e => rw [hdiv] at h; simp at h
  | ok q =>
      rw [hdiv] at h
      dsimp only at h
      injection h with h2
      subst h2
      refine ⟨_, rfl, rfl, rfl, ?_⟩
      dsimp only [BamEpochMetrics.mkNew]
      rw [havail]

/-- Concrete override-free run-tail input and its output, for the C6 witness. -/
def exInpC6 : RunTailInputs := ⟨100, 25, 100, 10000, 1, none, none⟩

/-- Output of `bamWriterRunTail [] exInpC6`. -/
def exOutC6 : List BamEpochMetrics × Nat := ([⟨2000, 2000, 25, 1, 100, 10000, 100⟩], 2000)

/-- Witness for C6 (amended) at a concrete override-free run. -/
theorem C6_witness :
    (exInpC6.override_delegation = none ∧ exInpC6.jitosol_stake < U64MOD ∧
      bamWriterRunTail [] exInpC6 = .ok exOutC6) ∧
    ∃ m, exOutC6.1 = upsertMetrics [] m ∧ m.epoch = exInpC6.epoch ∧
      m.jitosol_stake = exInpC6.jitosol_stake ∧
      m.available_bam_delegation_stake = m.jitosol_stake * m.allocation_bps / 10000 :=
  ⟨⟨by decide, by decide, by decide⟩,
    C6_available_matches_allocation [] exInpC6 (by decide) (by decide) exOutC6 (by decide)⟩

/-! ## bam-writer-service: validator eligibility (JIP-28)

From `src/bam-writer-service/src/bam_validator_eligibility.rs`.  The
`validator_history` crate is an external dependency: a history account is
modelled as an epoch-keyed entry list, and each `*_range(start, end)` call
yields, per epoch of the inclusive window, the field of the entry present
at that epoch (or `None`).  `calculate_chain_max_credits` is
`max().unwrap_or(0)` per epoch over all histories.  The f64 expression
`(max_credits as f64 * 0.97) as u32` is modelled as `max * 97 / 100`; the
facts proved below never exercise an input where the f64 rounding of that
product could differ from the rational floor. -/

structure HistoryEntry where
  commission : Nat
  mev_commission : Nat
  is_superminority : Nat
  epoch_credits : Nat
  client_type : Nat
deriving DecidableEq, Repr

structure ValidatorHistoryM where
  vote_account : Nat
  index : Nat
  entries : List (Nat × HistoryEntry)
deriving DecidableEq, Repr

/-- The entry a history holds for an epoch, if any. -/
def entryAt (vh : ValidatorHistoryM) (epoch : Nat) : Option HistoryEntry :=
  (vh.entries.find? (fun p => p.1 == epoch)).map Prod.snd

/-- Index list of the inclusive window `[s, e]` (offsets from `s`). -/
def windowIdx (s e : Nat) : List Nat := List.range (e + 1 - s)

/-- First failure over a window: the source loops `for (i, epoch) in
(start..=end).enumerate()` and returns on the first present entry that
violates the criterion. -/
def scanWindow (vh : ValidatorHistoryM) (s e : Nat)
    (check : Nat → HistoryEntry → Option α) : Option α :=
  (windowIdx s e).findSome? (fun i =>
    match entryAt vh (s + i) with
    | none => none
    | some en => check (s + i) en)

/-- `calculate_chain_max_credits` for one epoch. -/
def chainMaxCredits (histories : List ValidatorHistoryM) (epoch : Nat) : Nat :=
  (histories.filterMap (fun vh => (entryAt vh epoch).map HistoryEntry.epoch_credits)).foldr
    Nat.max 0

inductive IneligibilityReason where
  | notBamClient
  | nonZeroCommission (epoch commission : Nat)
  | highMevCommission (epoch mev_commission : Nat)
  | inSuperminority (epoch : Nat)
  | lowVoteCredits (epoch credits min_required : Nat)
  | insufficientHistory
  | onChainBlacklist
  | offChainBlacklist
deriving DecidableEq, Repr

/-- `BamValidatorEligibility::check_eligibility` at current epoch `E`:
windows `[E-30, E-1]` (inflation commission), `[E-10, E-1]` (MEV commission)
and `[E-3, E-1]` (BAM client, superminority, vote credits); the
"continuous operation" count `epochs_with_data` is taken over the
`commissions` vector, i.e. the 30-epoch commission window.  `ClientType`
maps `6` to BAM (`client_type.rs`).  The steward on-chain blacklist bitmap
is the set of set bit indices; the off-chain blacklist is a vote-account
list. -/
def check_eligibility (currentEpoch : Nat) (histories : List ValidatorHistoryM)
    (blacklist_validators : List Nat) (onchain_blacklist : List Nat)
    (vh : ValidatorHistoryM) : Except IneligibilityReason Unit :=
  let cS := currentEpoch - 30
  let cE := currentEpoch - 1
  let mS := currentEpoch - 10
  let mE := currentEpoch - 1
  let rS := currentEpoch - 3
  let rE := currentEpoch - 1
  let epochsWithData := ((windowIdx cS cE).filter (fun i => (entryAt vh (cS + i)).isSome)).length
  if epochsWithData < 3 then .error .insufficientHistory
  else
    match scanWindow vh rS rE (fun _ en =>
        if en.client_type ≠ 6 then some IneligibilityReason.notBamClient else none) with
    | some rsn => .error rsn
    | none =>
      match scanWindow vh cS cE (fun ep en =>
          if en.commission ≠ 0 then some (IneligibilityReason.nonZeroCommission ep en.commission)
          else none) with
      | some rsn => .error rsn
      | none =>
        match scanWindow vh mS mE (fun ep en =>
            if en.mev_commission > 10 then
              some (IneligibilityReason.highMevCommission ep en.mev_commission)
            else none) with
        | some rsn => .error rsn
        | none =>
          match scanWindow vh rS rE (fun ep en =>
              if en.is_superminority ≠ 0 then some (IneligibilityReason.inSuperminority ep)
              else none) with
          | some rsn => .error rsn
          | none =>
            match scanWindow vh rS rE (fun ep en =>
                let minReq := chainMaxCredits histories ep * 97 / 100
                if en.epoch_credits < minReq then
                  some (IneligibilityReason.lowVoteCredits ep en.epoch_credits minReq)
                else none) with
            | some rsn => .error rsn
            | none =>
                if vh.index ∈ onchain_blacklist then .error .onChainBlacklist
                else if vh.vote_account ∈ blacklist_validators then .error .offChainBlacklist
                else .ok ()

/-- The all-pass entry of the C2 failing input: zero commissions, BAM client. -/
def exEntry2 : HistoryEntry := ⟨0, 0, 0, 0, 6⟩

/-- C2 failing input: a history whose only entries sit at epochs 70, 71, 72
(that is `E-30 .. E-28` for current epoch 100), none inside `[E-3, E-1]`. -/
def exVh2 : ValidatorHistoryM := ⟨500, 0, [(70, exEntry2), (71, exEntry2), (72, exEntry2)]⟩

/-- C2: evaluation of `check_eligibility` at the failing input.  Zero epochs of
`[E-3, E-1] = [97, 99]` are present, so the claim (and the source's own
comment, "Must have history for all 3 epochs") demands `InsufficientHistory`;
the code counts presence over the 30-epoch commission window `[70, 99]`,
finds the three ancient entries, and returns `Ok`. -/
theorem C2_insufficient_history_miscount :
    check_eligibility 100 [exVh2] [] [] exVh2 = .ok () ∧
    ((windowIdx 97 99).filter (fun i => (entryAt exVh2 (97 + i)).isSome)).length = 0 ∧
    ((windowIdx 70 99).filter (fun i => (entryAt exVh2 (70 + i)).isSome)).length = 3 := by
  refine ⟨by decide, by decide, by decide⟩

/-! ## writer-service: reward attribution (`merkle_tree_parser.rs`)

Pubkeys are Nats (`Pubkey::default() = 0`), the base58 strings stored in
the reward rows are the pubkeys themselves.  The two Rust HashMaps are
modelled as association lists with replace-or-append insertion; the
properties proved below are invariant under the iteration order a HashMap
would use when the maps are drained into the output vectors. -/

/-- `tip_distributor_sdk::TreeNode` (claim_status_bump and proof omitted:
the parser never reads them). -/
structure SdkTreeNode where
  claimant : Nat
  claim_status_pubkey : Nat
  staker_pubkey : Nat
  withdrawer_pubkey : Nat
  amount : Nat
deriving DecidableEq, Repr

structure GeneratedMerkleTree where
  distribution_program : Nat
  distribution_account : Nat
  tree_nodes : List SdkTreeNode
  max_total_claim : Nat
deriving DecidableEq, Repr

structure GeneratedMerkleTreeCollection where
  generated_merkle_trees : List GeneratedMerkleTree
  epoch : Nat
deriving DecidableEq, Repr

structure TipDistributionMeta where
  tip_distribution_pubkey : Nat
  validator_fee_bps : Nat
deriving DecidableEq, Repr

structure PriorityFeeDistributionMeta where
  priority_fee_distribution_pubkey : Nat
  validator_fee_bps : Nat
deriving DecidableEq, Repr

structure StakeMeta where
  validator_vote_account : Nat
  maybe_tip_distribution_meta : Option TipDistributionMeta
  maybe_priority_fee_distribution_meta : Option PriorityFeeDistributionMeta
deriving DecidableEq, Repr

structure StakeMetaCollection where
  stake_metas : List StakeMeta
  epoch : Nat
deriving DecidableEq, Repr

/-- `kobe_core::db_models::mev_rewards::ValidatorRewards`. -/
structure ValidatorRewards where
  vote_account : Nat
  mev_revenue : Nat
  priority_fee_revenue : Option Nat
  mev_commission : Nat
  priority_fee_commission : Option Nat
  num_stakers : Nat
  epoch : Nat
  claim_status_account : Option Nat
deriving DecidableEq, Repr

/-- `kobe_core::db_models::mev_rewards::StakerRewards`. -/
structure StakerRewards where
  claimant : Nat
  stake_authority : Nat
  withdraw_authority : Nat
  validator_vote_account : Nat
  epoch : Nat
  amount : Nat
  priority_fee_amount : Option Nat
  claim_status_account : Option Nat
  priority_fee_claim_status_account : Option Nat
deriving DecidableEq, Repr

/-- Association-list lookup (`HashMap::get`). -/
def alGet {V : Type} (m : List (Nat × V)) (k : Nat) : Option V :=
  (m.find? (fun p => p.1 == k)).map Prod.snd

/-- Association-list insert (`HashMap::insert`): replace or append. -/
def alInsert {V : Type} (m : List (Nat × V)) (k : Nat) (v : V) : List (Nat × V) :=
  if m.any (fun p => p.1 == k) then m.map (fun p => if p.1 == k then (k, v) else p)
  else m ++ [(k, v)]

/-- The parser's local `ValidatorMeta`. -/
structure ValidatorMeta where
  vote_account : Nat
  mev_commission : Nat
  priority_fee_commission : Option Nat
  epoch : Nat
deriving DecidableEq, Repr

/-- `ValidatorRewardsBuilder`.  `vote_account`, `mev_commission` and `epoch`
are always written before an insert, so they are plain fields; the revenue,
staker-count and claim-status fields keep their `Option` defaults. -/
structure ValidatorRewardsB where
  vote_account : Nat
  mev_commission : Nat
  priority_fee_commission : Option Nat
  epoch : Nat
  mev_revenue : Option Nat
  priority_fee_revenue : Option Nat
  num_stakers : Option Nat
  claim_status_account : Option Nat
deriving DecidableEq, Repr

def ValidatorRewardsB.default0 : ValidatorRewardsB := ⟨0, 0, none, 0, none, none, none, none⟩

/-- `ValidatorRewardsBuilder::build`. -/
def ValidatorRewardsB.build (b : ValidatorRewardsB) : ValidatorRewards :=
  ⟨b.vote_account, b.mev_revenue.getD 0, b.priority_fee_revenue, b.mev_commission,
    b.priority_fee_commission, b.num_stakers.getD 0, b.epoch, b.claim_status_account⟩

/-- `StakerRewardsBuilder`, with the same convention. -/
structure StakerRewardsB where
  epoch : Nat
  claimant : Nat
  stake_authority : Nat
  withdraw_authority : Nat
  validator_vote_account : Nat
  tip_amount : Option Nat
  tip_claim_status_account : Option Nat
  priority_fee_amount : Option Nat
  priority_fee_claim_status_account : Option Nat
deriving DecidableEq, Repr

def StakerRewardsB.default0 : StakerRewardsB := ⟨0, 0, 0, 0, 0, none, none, none, none⟩

/-- `StakerRewardsBuilder::build`: `amount = tip_amount.unwrap_or(0)`. -/
def StakerRewardsB.build (b : StakerRewardsB) : StakerRewards :=
  ⟨b.claimant, b.stake_authority, b.withdraw_authority, b.validator_vote_account, b.epoch,
    b.tip_amount.getD 0, b.priority_fee_amount, b.tip_claim_status_account,
    b.priority_fee_claim_status_account⟩

/-- The inverse map tip-distribution-PDA → validator meta
(`HashMap::from_iter`: a later stake meta with the same PDA overwrites). -/
def tdaToValidator (target_epoch : Nat) (smc : StakeMetaCollection) :
    List (Nat × ValidatorMeta) :=
  smc.stake_metas.foldl (fun m meta =>
    match meta.maybe_tip_distribution_meta with
    | none => m
    | some tdm =>
        alInsert m tdm.tip_distribution_pubkey
          ⟨meta.validator_vote_account, tdm.validator_fee_bps,
            meta.maybe_priority_fee_distribution_meta.map
              PriorityFeeDistributionMeta.validator_fee_bps,
            target_epoch⟩) []

/-- One iteration of the `tree.tree_nodes.iter().for_each(..)` closure:
updates the staker-builder map and the validator builder for one leaf.
Panics ("Unknown distribution program") become errors. -/
def nodeStep (tipProg pfProg target_epoch : Nat) (vmeta : ValidatorMeta)
    (tree : GeneratedMerkleTree)
    (st : List (Nat × StakerRewardsB) × ValidatorRewardsB) (node : SdkTreeNode) :
    Except String (List (Nat × StakerRewardsB) × ValidatorRewardsB) :=
  let claimant0 := (alGet st.1 node.claimant).getD StakerRewardsB.default0
  let vr1 := { st.2 with num_stakers := some tree.tree_nodes.length }
  if tree.distribution_program = tipProg then
    let vr2 := if node.staker_pubkey = 0 then
        { vr1 with claim_status_account := some node.claim_status_pubkey }
      else vr1
    let claimant1 := { claimant0 with
      tip_amount := some node.amount
      tip_claim_status_account := some node.claim_status_pubkey
      epoch := target_epoch
      claimant := node.claimant
      stake_authority := node.staker_pubkey
      withdraw_authority := node.withdrawer_pubkey
      validator_vote_account := vmeta.vote_account }
    .ok (alInsert st.1 node.claimant claimant1, vr2)
  else if tree.distribution_program = pfProg then
    let claimant1 := { claimant0 with
      priority_fee_amount := some node.amount
      priority_fee_claim_status_account := some node.claim_status_pubkey
      epoch := target_epoch
      claimant := node.claimant
      stake_authority := node.staker_pubkey
      withdraw_authority := node.withdrawer_pubkey
      validator_vote_account := vmeta.vote_account }
    .ok (alInsert st.1 node.claimant claimant1, vr1)
  else .error "Unknown distribution program"

/-- Processing of one generated tree: skip it when its distribution account is
not in the stake-meta map, otherwise run the node loop and record the
tree-level revenue and commissions on the validator builder. -/
def processTree (tipProg pfProg target_epoch : Nat) (tda : List (Nat × ValidatorMeta))
    (st : List (Nat × ValidatorRewardsB) × List (Nat × StakerRewardsB))
    (tree : GeneratedMerkleTree) :
    Except String (List (Nat × ValidatorRewardsB) × List (Nat × StakerRewardsB)) :=
  match alGet tda tree.distribution_account with
  | none => .ok st
  | some vmeta =>
      if vmeta.epoch ≠ target_epoch then .error "MalformedMerkleTree"
      else
        let vr0 := (alGet st.1 vmeta.vote_account).getD ValidatorRewardsB.default0
        match tree.tree_nodes.foldlM (nodeStep tipProg pfProg target_epoch vmeta tree)
            (st.2, vr0) with
        | .error e => .error e
        | .ok res =>
            if tree.distribution_program = tipProg then
              let vr2 := { res.2 with
                mev_revenue := some tree.max_total_claim
                priority_fee_commission := vmeta.priority_fee_commission
                mev_commission := vmeta.mev_commission
                vote_account := vmeta.vote_account
                epoch := target_epoch }
              .ok (alInsert st.1 vmeta.vote_account vr2, res.1)
            else if tree.distribution_program = pfProg then
              let vr2 := { res.2 with
                priority_fee_revenue := some tree.max_total_claim
                priority_fee_commission := vmeta.priority_fee_commission
                mev_commission := vmeta.mev_commission
                vote_account := vmeta.vote_account
                epoch := target_epoch }
              .ok (alInsert st.1 vmeta.vote_account vr2, res.1)
            else .error "Unknown distribution program"

/-- `parse_merkle_tree`: epoch asserts (panics become errors), the tree loop,
and the two output row lists drained from the builder maps. -/
def parse_merkle_tree (target_epoch : Nat) (mtc : GeneratedMerkleTreeCollection)
    (smc : StakeMetaCollection) (tipProg pfProg : Nat) :
    Except String (List ValidatorRewards × List StakerRewards) :=
  if smc.epoch ≠ target_epoch then
    .error "Problem with the stake meta upload. Epochs do not match"
  else if mtc.epoch ≠ target_epoch then
    .error "Problem with the merkle tree upload. Epochs do not match"
  else
    let tda := tdaToValidator target_epoch smc
    match mtc.generated_merkle_trees.foldlM (processTree tipProg pfProg target_epoch tda)
        ([], []) with
    | .error e => .error e
    | .ok maps =>
        .ok (maps.1.map (fun p => p.2.build), maps.2.map (fun p => p.2.build))

theorem alGet_eq_none {V : Type} (m : List (Nat × V)) (k : Nat)
    (h : k ∉ m.map Prod.fst) : alGet m k = none := by
  unfold alGet
  rw [List.find?_eq_none.mpr]
  · rfl
  · intro p hp
    simp only [beq_iff_eq]
    intro hk
    exact h (List.mem_map.mpr ⟨p, hp, hk⟩)

theorem alInsert_not_mem {V : Type} (m : List (Nat × V)) (k : Nat) (v : V)
    (h : k ∉ m.map Prod.fst) : alInsert m k v = m ++ [(k, v)] := by
  unfold alInsert
  rw [if_neg]
  intro hany
  obtain ⟨p, hp, hk⟩ := List.any_eq_true.mp hany
  exact h (List.mem_map.mpr ⟨p, hp, by simpa using hk⟩)

theorem alInsert_forall {V : Type} (P : V → Prop) (m : List (Nat × V)) (k : Nat) (v : V)
    (hm : ∀ p ∈ m, P p.2) (hv : P v) : ∀ p ∈ alInsert m k v, P p.2 := by
  intro p hp
  unfold alInsert at hp
  by_cases hmem : m.any (fun p => p.1 == k)
  · rw [if_pos hmem] at hp
    obtain ⟨q, hq, hpq⟩ := List.mem_map.mp hp
    by_cases hqk : q.1 == k
    · rw [if_pos hqk] at hpq
      rw [← hpq]
      exact hv
    · rw [if_neg hqk] at hpq
      rw [← hpq]
      exact hm q hq
  · rw [if_neg hmem] at hp
    rcases List.mem_append.mp hp with h2 | h2
    · exact hm p h2
    · simp only [List.mem_singleton] at h2
      rw [h2]
      exact hv

theorem tdaToValidator_forall_epoch (target : Nat) (smc : StakeMetaCollection) :
    ∀ p ∈ tdaToValidator target smc, p.2.epoch = target := by
  unfold tdaToValidator
  suffices h : ∀ (metas : List StakeMeta) (m0 : List (Nat × ValidatorMeta)),
      (∀ p ∈ m0, p.2.epoch = target) →
      ∀ p ∈ metas.foldl (fun m meta =>
        match meta.maybe_tip_distribution_meta with
        | none => m
        | some tdm =>
            alInsert m tdm.tip_distribution_pubkey
              ⟨meta.validator_vote_account, tdm.validator_fee_bps,
                meta.maybe_priority_fee_distribution_meta.map
                  PriorityFeeDistributionMeta.validator_fee_bps,
                target⟩) m0, p.2.epoch = target by
    exact h smc.stake_metas [] (fun p hp => absurd hp (List.not_mem_nil p))
  intro metas
  induction metas with
  | nil => intro m0 h0 p hp; exact h0 p hp
  | cons meta rest ih =>
      intro m0 h0 p hp
      simp only [List.foldl_cons] at hp
      cases hmt : meta.maybe_tip_distribution_meta with
      | none =>
          rw [hmt] at hp
          exact ih m0 h0 p hp
      | some tdm =>
          rw [hmt] at hp
          refine ih _ ?_ p hp
          intro q hq
          exact alInsert_forall (fun v => v.epoch = target) m0 _ _ h0 rfl q hq

theorem alGet_mem_val {V : Type} (m : List (Nat × V)) (k : Nat) (v : V)
    (h : alGet m k = some v) : ∃ p ∈ m, p.2 = v := by
  unfold alGet at h
  cases hf : m.find? (fun p => p.1 == k) with
  | none => rw [hf] at h; simp at h
  | some p =>
      rw [hf] at h
      refine ⟨p, List.mem_of_find?_eq_some hf, ?_⟩
      simpa using h

theorem tdaToValidator_epoch (target : Nat) (smc : StakeMetaCollection) (k : Nat)
    (vmeta : ValidatorMeta) (h : alGet (tdaToValidator target smc) k = some vmeta) :
    vmeta.epoch = target := by
  obtain ⟨p, hp, hpv⟩ := alGet_mem_val _ _ _ h
  rw [← hpv]
  exact tdaToValidator_forall_epoch target smc p hp

/-- The staker builder a tip-tree leaf produces when its claimant is fresh. -/
def tipRowB (target : Nat) (vmeta : ValidatorMeta) (n : SdkTreeNode) : StakerRewardsB :=
  ⟨target, n.claimant, n.staker_pubkey, n.withdrawer_pubkey, vmeta.vote_account,
    some n.amount, some n.claim_status_pubkey, none, none⟩

/-- The node loop of a tip-program tree over pairwise-fresh claimants appends
one staker builder per leaf, in leaf order, and stamps the leaf count on the
validator builder. -/
theorem nodeFold_tip (tipProg pfProg target : Nat) (vmeta : ValidatorMeta)
    (tree : GeneratedMerkleTree) (hprog : tree.distribution_program = tipProg) :
    ∀ (nodes : List SdkTreeNode) (smap : List (Nat × StakerRewardsB)) (vr : ValidatorRewardsB),
      (nodes.map SdkTreeNode.claimant).Nodup →
      (∀ n ∈ nodes, n.claimant ∉ smap.map Prod.fst) →
      ∃ vrF, nodes.foldlM (nodeStep tipProg pfProg target vmeta tree) (smap, vr) =
        .ok (smap ++ nodes.map (fun n => (n.claimant, tipRowB target vmeta n)), vrF) ∧
        (nodes = [] → vrF = vr) ∧
        (nodes ≠ [] → vrF.num_stakers = some tree.tree_nodes.length) := by
  intro nodes
  induction nodes with
  | nil =>
      intro smap vr _ _
      refine ⟨vr, ?_, fun _ => rfl, fun h => absurd rfl h⟩
      simp only [List.foldlM_nil, List.map_nil, List.append_nil]
      rfl
  | cons n rest ih =>
      intro smap vr hnodup hdisj
      have hno : n.claimant ∉ smap.map Prod.fst := hdisj n (List.mem_cons_self n rest)
      have hget : alGet smap n.claimant = none := alGet_eq_none _ _ hno
      have hins : ∀ v : StakerRewardsB, alInsert smap n.claimant v =
          smap ++ [(n.claimant, v)] := fun v => alInsert_not_mem _ _ _ hno
      have hstep : nodeStep tipProg pfProg target vmeta tree (smap, vr) n =
          .ok (smap ++ [(n.claimant, tipRowB target vmeta n)],
            if n.staker_pubkey = 0 then
              { vr with num_stakers := some tree.tree_nodes.length
                        claim_status_account := some n.claim_status_pubkey }
            else { vr with num_stakers := some tree.tree_nodes.length }) := by
        unfold nodeStep
        dsimp only
        rw [hget, if_pos hprog, hins _]
        rfl
      have hnodup2 : (rest.map SdkTreeNode.claimant).Nodup :=
        (List.nodup_cons.mp hnodup).2
      have hhd : n.claimant ∉ rest.map SdkTreeNode.claimant :=
        (List.nodup_cons.mp hnodup).1
      have hdisj2 : ∀ m ∈ rest,
          m.claimant ∉ (smap ++ [(n.claimant, tipRowB target vmeta n)]).map Prod.fst := by
        intro m hm
        simp only [List.map_append, List.mem_append, List.map_cons, List.map_nil,
          List.mem_singleton, List.mem_cons]
        rintro (h2 | h2)
        · exact hdisj m (List.mem_cons_of_mem _ hm) h2
        · simp only [List.not_mem_nil, or_false] at h2
          exact hhd (h2 ▸ List.mem_map.mpr ⟨m, hm, rfl⟩)
      obtain ⟨vrF, hfold, hnil2, hne2⟩ :=
        ih (smap ++ [(n.claimant, tipRowB target vmeta n)])
          (if n.staker_pubkey = 0 then
            { vr with num_stakers := some tree.tree_nodes.length
                      claim_status_account := some n.claim_status_pubkey }
          else { vr with num_stakers := some tree.tree_nodes.length })
          hnodup2 hdisj2
      refine ⟨vrF, ?_, ?_, ?_⟩
      · rw [List.foldlM_cons, hstep, exceptBind_ok, hfold]
        congr 2
        simp
      · intro h; simp at h
      · intro _
        rcases eq_or_ne rest [] with hr | hr
        · have := hnil2 hr
          rw [this]
          by_cases h0 : n.staker_pubkey = 0 <;> simp [h0]
        · exact hne2 hr

/-- C1 (amended): processing a tip-distribution tree whose account maps to
validator meta `vmeta` emits one `StakerRewards` row per leaf — including the
default-staker (validator) leaf — so the amounts are exactly the leaf amounts
and their total over `validator_vote_account = v` equals the tree's
`max_total_claim` (the artifact well-formedness `Σ leaf amounts =
max_total_claim` is a hypothesis: the parser never checks it). -/
theorem C1_staker_rows_per_leaf (target tipProg pfProg : Nat) (smc : StakeMetaCollection)
    (tree : GeneratedMerkleTree) (vmeta : ValidatorMeta)
    (hsmE : smc.epoch = target)
    (hmap : alGet (tdaToValidator target smc) tree.distribution_account = some vmeta)
    (hprog : tree.distribution_program = tipProg)
    (hnodup : (tree.tree_nodes.map SdkTreeNode.claimant).Nodup)
    (hsum : (tree.tree_nodes.map SdkTreeNode.amount).sum = tree.max_total_claim) :
    ∃ vrows srows,
      parse_merkle_tree target ⟨[tree], target⟩ smc tipProg pfProg = .ok (vrows, srows) ∧
      srows.length = tree.tree_nodes.length ∧
      srows.map StakerRewards.amount = tree.tree_nodes.map SdkTreeNode.amount ∧
      (∀ r ∈ srows, r.validator_vote_account = vmeta.vote_account ∧ r.epoch = target) ∧
      (srows.map StakerRewards.amount).sum = tree.max_total_claim := by
  have hvepoch : vmeta.epoch = target := tdaToValidator_epoch _ _ _ _ hmap
  obtain ⟨vrF, hfold, _, _⟩ := nodeFold_tip tipProg pfProg target vmeta tree hprog
    tree.tree_nodes [] ValidatorRewardsB.default0 hnodup (by simp)
  have hptree : processTree tipProg pfProg target (tdaToValidator target smc) ([], []) tree =
      .ok ([(vmeta.vote_account,
        { vrF with
          mev_revenue := some tree.max_total_claim
          priority_fee_commission := vmeta.priority_fee_commission
          mev_commission := vmeta.mev_commission
          vote_account := vmeta.vote_account
          epoch := target })],
        tree.tree_nodes.map (fun n => (n.claimant, tipRowB target vmeta n))) := by
    unfold processTree
    rw [hmap]
    dsimp only
    rw [if_neg (by rw [hvepoch]; exact fun h => h rfl)]
    have : (alGet ([] : List (Nat × ValidatorRewardsB)) vmeta.vote_account).getD
        ValidatorRewardsB.default0 = ValidatorRewardsB.default0 := rfl
    rw [this]
    rw [hfold]
    dsimp only
    rw [if_pos hprog]
    rfl
  have hparse : parse_merkle_tree target ⟨[tree], target⟩ smc tipProg pfProg =
      .ok (([(vmeta.vote_account,
        ({ vrF with
          mev_revenue := some tree.max_total_claim
          priority_fee_commission := vmeta.priority_fee_commission
          mev_commission := vmeta.mev_commission
          vote_account := vmeta.vote_account
          epoch := target } : ValidatorRewardsB))]).map (fun p => p.2.build),
        (tree.tree_nodes.map (fun n => (n.claimant, tipRowB target vmeta n))).map
          (fun p => p.2.build)) := by
    unfold parse_merkle_tree
    rw [if_neg (by rw [hsmE]; exact fun h => h rfl), if_neg (fun h => h rfl)]
    simp only [List.foldlM_cons, List.foldlM_nil, hptree, exceptBind_ok]
    rfl
  refine ⟨_, _, hparse, ?_, ?_, ?_, ?_⟩
  · simp
  · simp only [List.map_map]
    apply List.map_congr_left
    intro n _
    rfl
  · intro r hr
    simp only [List.map_map, List.mem_map] at hr
    obtain ⟨n, _, hn⟩ := hr
    rw [← hn]
    exact ⟨rfl, rfl⟩
  · rw [show (List.map (fun p => p.2.build)
        (tree.tree_nodes.map (fun n => (n.claimant, tipRowB target vmeta n)))).map
        StakerRewards.amount = tree.tree_nodes.map SdkTreeNode.amount by
      simp only [List.map_map]
      apply List.map_congr_left
      intro n _
      rfl]
    exact hsum

/-- Stake metas of the C1 scenario: validator 100 with tip PDA 50. -/
def exSmc1 : StakeMetaCollection := ⟨[⟨100, some ⟨50, 0⟩, none⟩], 5⟩

/-- The C1 tip tree: three leaves with amounts 100, 40, 5; the first leaf has
the default staker pubkey (the validator's own claim). -/
def exTipTree1 : GeneratedMerkleTree :=
  ⟨7, 50, [⟨1, 11, 0, 21, 100⟩, ⟨2, 12, 31, 22, 40⟩, ⟨3, 13, 32, 23, 5⟩], 145⟩

/-- The collection holding the C1 tip tree. -/
def exMtc1 : GeneratedMerkleTreeCollection := ⟨[exTipTree1], 5⟩

/-- Counterexample to C1 as stated: the three-leaf scenario yields THREE
staker rows, with amounts 100, 40 and 5 — the default-staker leaf is emitted
as a staker row too, and the amounts sum to the full `max_total_claim` 145
rather than 145 minus the validator-leaf amount. -/
theorem C1_counterexample :
    (parse_merkle_tree 5 exMtc1 exSmc1 7 8).map
      (fun r => r.2.map StakerRewards.amount) = .ok [100, 40, 5] ∧
    (parse_merkle_tree 5 exMtc1 exSmc1 7 8).map (fun r => r.2.length) = .ok 3 := by
  exact ⟨by decide, by decide⟩

/-- Witness for C1 (amended) at the three-leaf scenario. -/
theorem C1_witness :
    (exSmc1.epoch = 5 ∧
      alGet (tdaToValidator 5 exSmc1) exTipTree1.distribution_account =
        some ⟨100, 0, none, 5⟩ ∧
      exTipTree1.distribution_program = 7 ∧
      (exTipTree1.tree_nodes.map SdkTreeNode.claimant).Nodup ∧
      (exTipTree1.tree_nodes.map SdkTreeNode.amount).sum = exTipTree1.max_total_claim) ∧
    ∃ vrows srows,
      parse_merkle_tree 5 ⟨[exTipTree1], 5⟩ exSmc1 7 8 = .ok (vrows, srows) ∧
      srows.length = exTipTree1.tree_nodes.length ∧
      srows.map StakerRewards.amount = exTipTree1.tree_nodes.map SdkTreeNode.amount ∧
      (∀ r ∈ srows, r.validator_vote_account = (100 : Nat) ∧ r.epoch = 5) ∧
      (srows.map StakerRewards.amount).sum = exTipTree1.max_total_claim := by
  refine ⟨⟨by decide, by decide, by decide, by decide, by decide⟩, ?_⟩
  have h := C1_staker_rows_per_leaf 5 7 8 exSmc1 exTipTree1 ⟨100, 0, none, 5⟩
    (by decide) (by decide) (by decide) (by decide) (by decide)
  exact h

/-! ## writer-service: `google_storage.rs`

Bucket object names and media links are character lists; `contains`,
`split('/')` and `parse::<u64>().unwrap_or_default()` are modelled on
them directly.  The pagination loop of `get_file_uris` concatenates the
returned pages, so the model takes the page list and joins it. -/

structure GsFile where
  name : List Char
  media_link : List Char
deriving DecidableEq, Repr

/-- Rust `str::contains` on character lists. -/
def containsSubstr (hay needle : List Char) : Bool :=
  (List.range (hay.length + 1)).any (fun i => needle.isPrefixOf (hay.drop i))

/-- Rust `str::parse::<u64>()`: all-digit non-empty strings within u64. -/
def parseU64? (s : List Char) : Option Nat :=
  if s ≠ [] && s.all Char.isDigit then
    let v := s.foldl (fun acc c => acc * 10 + (c.toNat - 48)) 0
    if v < U64MOD then some v else none
  else none

/-- `filter_file`: the first bucket object whose name contains the artifact
kind, whose leading path segment parses to the epoch, and whose name contains
the server name. -/
def filter_file (response : List GsFile) (name : List Char) (epoch : Nat)
    (server_name : List Char) : Except String GsFile :=
  match response.find? (fun file =>
      containsSubstr file.name name &&
      ((parseU64? ((file.name.splitOn '/').headD [])).getD 0 == epoch) &&
      containsSubstr file.name server_name) with
  | some f => .ok f
  | none => .error "FileNotFound"

/-- `get_file_uris`: join the listing pages, then pick the merkle-tree
artifact from the first server (in priority order) that has one, and —
independently — the stake-meta artifact from the first server that has one.
Returns `(merkle_tree_uri, stake_meta_uri)`. -/
def get_file_uris (pages : List (List GsFile)) (epoch : Nat)
    (mainnet_gcp_server_names : List (List Char)) : Except String (List Char × List Char) :=
  let items := pages.join
  match mainnet_gcp_server_names.findSome?
      (fun gcp_name => (filter_file items ("merkle-tree".toList) epoch gcp_name).toOption) with
  | none => .error "FileNotFound: merkle-tree"
  | some mt =>
      match mainnet_gcp_server_names.findSome?
          (fun gcp_name => (filter_file items ("stake-meta".toList) epoch gcp_name).toOption) with
      | none => .error "FileNotFound: stake-meta"
      | some sm => .ok (mt.media_link, sm.media_link)

theorem findSome?_split {α β : Type} (g : α → Option β) :
    ∀ (l : List α) (b : β), l.findSome? g = some b →
      ∃ l1 a l2, l = l1 ++ a :: l2 ∧ g a = some b ∧ ∀ x ∈ l1, g x = none := by
  intro l
  induction l with
  | nil => intro b h; simp [List.findSome?] at h
  | cons a rest ih =>
      intro b h
      rw [List.findSome?_cons] at h
      cases hg : g a with
      | some v =>
          rw [hg] at h
          simp only at h
          refine ⟨[], a, rest, by simp, ?_, by simp⟩
          rw [hg, h]
      | none =>
          rw [hg] at h
          obtain ⟨l1, x, l2, hsplit, hx, hnone⟩ := ih b h
          refine ⟨a :: l1, x, l2, by rw [hsplit]; rfl, hx, ?_⟩
          intro y hy
          rcases List.mem_cons.mp hy with h2 | h2
          · rw [h2]; exact hg
          · exact hnone y h2

/-- C8 (amended): when `get_file_uris` succeeds, each of the two artifacts
comes from the first server name in the priority order that has an artifact of
that kind for the epoch — the two selections are independent, so the artifacts
may come from different servers. -/
theorem C8_first_server_per_kind (pages : List (List GsFile)) (epoch : Nat)
    (servers : List (List Char)) (m s : List Char)
    (h : get_file_uris pages epoch servers = .ok (m, s)) :
    (∃ l1 a l2, servers = l1 ++ a :: l2 ∧
      (∃ f, filter_file pages.join ("merkle-tree".toList) epoch a = .ok f ∧
        m = f.media_link) ∧
      ∀ x ∈ l1, (filter_file pages.join ("merkle-tree".toList) epoch x).toOption = none) ∧
    (∃ l1 a l2, servers = l1 ++ a :: l2 ∧
      (∃ f, filter_file pages.join ("stake-meta".toList) epoch a = .ok f ∧
        s = f.media_link) ∧
      ∀ x ∈ l1, (filter_file pages.join ("stake-meta".toList) epoch x).toOption = none) := by
  unfold get_file_uris at h
  dsimp only at h
  cases hmt : servers.findSome?
      (fun gcp_name => (filter_file pages.join ("merkle-tree".toList) epoch gcp_name).toOption) with
  | none => rw [hmt] at h; simp at h
  | some mt =>
      rw [hmt] at h
      dsimp only at h
      cases hsm : servers.findSome?
          (fun gcp_name =>
            (filter_file pages.join ("stake-meta".toList) epoch gcp_name).toOption) with
      | none => rw [hsm] at h; simp at h
      | some sm =>
          rw [hsm] at h
          dsimp only at h
          injection h with h2
          injection h2 with hm2 hs2
          constructor
          · obtain ⟨l1, a, l2, hsplit, ha, hnone⟩ := findSome?_split _ servers mt hmt
            refine ⟨l1, a, l2, hsplit, ?_, hnone⟩
            cases hf : filter_file pages.join ("merkle-tree".toList) epoch a with
            | error e => rw [hf] at ha; simp [Except.toOption] at ha
            | ok f =>
                rw [hf] at ha
                simp only [Except.toOption, Option.some.injEq] at ha
                exact ⟨f, rfl, by rw [← hm2, ha]⟩
          · obtain ⟨l1, a, l2, hsplit, ha, hnone⟩ := findSome?_split _ servers sm hsm
            refine ⟨l1, a, l2, hsplit, ?_, hnone⟩
            cases hf : filter_file pages.join ("stake-meta".toList) epoch a with
            | error e => rw [hf] at ha; simp [Except.toOption] at ha
            | ok f =>
                rw [hf] at ha
                simp only [Except.toOption, Option.some.injEq] at ha
                exact ⟨f, rfl, by rw [← hs2, ha]⟩

/-- The C8 listing: server s1 has only the merkle-tree artifact for epoch 844;
server s2 has both artifacts. -/
def exFileM1 : GsFile := ⟨"844/s1/844-merkle-tree.json".toList, "link-m1".toList⟩

def exFileM2 : GsFile := ⟨"844/s2/844-merkle-tree.json".toList, "link-m2".toList⟩

def exFileS2 : GsFile := ⟨"844/s2/844-stake-meta.json".toList, "link-s2".toList⟩

/-- Counterexample to C8 as stated: s2 is the first (and only) server that has
BOTH artifacts, so the claim requires both selections from s2; the code
instead picks the merkle-tree artifact from s1 and the stake-meta artifact
from s2 — different servers. -/
theorem C8_counterexample :
    get_file_uris [[exFileM1, exFileM2, exFileS2]] 844 ["s1".toList, "s2".toList] =
      .ok ("link-m1".toList, "link-s2".toList) ∧
    filter_file [exFileM1, exFileM2, exFileS2] ("merkle-tree".toList) 844 ("s2".toList) =
      .ok exFileM2 ∧
    filter_file [exFileM1, exFileM2, exFileS2] ("stake-meta".toList) 844 ("s2".toList) =
      .ok exFileS2 ∧
    filter_file [exFileM1, exFileM2, exFileS2] ("stake-meta".toList) 844 ("s1".toList) =
      .error "FileNotFound" ∧
    ("link-m1".toList ≠ "link-m2".toList) := by
  refine ⟨by decide, by decide, by decide, by decide, by decide⟩

/-- Witness for C8 (amended) at the counterexample listing. -/
theorem C8_witness :
    get_file_uris [[exFileM1, exFileM2, exFileS2]] 844 ["s1".toList, "s2".toList] =
      .ok ("link-m1".toList, "link-s2".toList) ∧
    ((∃ l1 a l2, (["s1".toList, "s2".toList] : List (List Char)) = l1 ++ a :: l2 ∧
      (∃ f, filter_file ([[exFileM1, exFileM2, exFileS2]] : List (List GsFile)).join
          ("merkle-tree".toList) 844 a = .ok f ∧ "link-m1".toList = f.media_link) ∧
      ∀ x ∈ l1, (filter_file ([[exFileM1, exFileM2, exFileS2]] :
        List (List GsFile)).join ("merkle-tree".toList) 844 x).toOption = none) ∧
    (∃ l1 a l2, (["s1".toList, "s2".toList] : List (List Char)) = l1 ++ a :: l2 ∧
      (∃ f, filter_file ([[exFileM1, exFileM2, exFileS2]] : List (List GsFile)).join
          ("stake-meta".toList) 844 a = .ok f ∧ "link-s2".toList = f.media_link) ∧
      ∀ x ∈ l1, (filter_file ([[exFileM1, exFileM2, exFileS2]] :
        List (List GsFile)).join ("stake-meta".toList) 844 x).toOption = none)) :=
  ⟨by decide,
    C8_first_server_per_kind [[exFileM1, exFileM2, exFileS2]] 844
      ["s1".toList, "s2".toList] ("link-m1".toList) ("link-s2".toList) (by decide)⟩

/-! ## writer-service: `write_mev_claims_info` (`db.rs`)

The document store is the pair of reward-row collections
(`write_to_db` is `insert_many`, i.e. append).  The two artifact
downloads are an oracle pair of fetch functions from media link to parsed
JSON; the returned count records how many downloads were performed. -/

structure WriterDb where
  staker_rewards : List StakerRewards
  validator_rewards : List ValidatorRewards
deriving DecidableEq, Repr

/-- `write_mev_claims_info`: early-return `Ok` when any staker-rewards row for
the target epoch exists (no download, no write); otherwise resolve the
artifact URIs, download both files and run the parser, appending its rows. -/
def write_mev_claims_info (db : WriterDb) (target_epoch : Nat)
    (tipProg pfProg : Nat) (mainnet_gcp_server_names : List (List Char))
    (pages : List (List GsFile))
    (fetchStakeMeta : List Char → StakeMetaCollection)
    (fetchMerkle : List Char → GeneratedMerkleTreeCollection) :
    Except String (WriterDb × Nat) :=
  if (db.staker_rewards.find? (fun r => r.epoch == target_epoch)).isSome then .ok (db, 0)
  else
    match get_file_uris pages target_epoch mainnet_gcp_server_names with
    | .error e => .error e
    | .ok uris =>
        let stake_meta_collection := fetchStakeMeta uris.2
        let merkle_tree_collection := fetchMerkle uris.1
        match parse_merkle_tree target_epoch merkle_tree_collection stake_meta_collection
            tipProg pfProg with
        | .error e => .error e
        | .ok rows =>
            .ok (⟨db.staker_rewards ++ rows.2, db.validator_rewards ++ rows.1⟩, 2)

/-- C7: if the staker-rewards collection already holds a row for the target
epoch, the attribution returns `Ok` with zero downloads and the store
unchanged. -/
theorem C7_idempotent_when_rows_exist (db : WriterDb) (target_epoch : Nat)
    (tipProg pfProg : Nat) (servers : List (List Char)) (pages : List (List GsFile))
    (fetchStakeMeta : List Char → StakeMetaCollection)
    (fetchMerkle : List Char → GeneratedMerkleTreeCollection)
    (h : ∃ r ∈ db.staker_rewards, r.epoch = target_epoch) :
    write_mev_claims_info db target_epoch tipProg pfProg servers pages
      fetchStakeMeta fetchMerkle = .ok (db, 0) := by
  unfold write_mev_claims_info
  rw [if_pos]
  rw [List.find?_isSome]
  obtain ⟨r, hr, hre⟩ := h
  exact ⟨r, hr, by simpa using hre⟩

/-- A store that already holds a staker row for epoch 5. -/
def exDb7 : WriterDb :=
  ⟨[⟨1, 31, 21, 100, 5, 40, none, some 12, none⟩], []⟩

/-- Witness for C7 at a concrete store with an epoch-5 row. -/
theorem C7_witness :
    (∃ r ∈ exDb7.staker_rewards, r.epoch = 5) ∧
    write_mev_claims_info exDb7 5 7 8 ["s1".toList] [[exFileM1]]
      (fun _ => ⟨[], 5⟩) (fun _ => ⟨[], 5⟩) = .ok (exDb7, 0) :=
  ⟨by decide,
    C7_idempotent_when_rows_exist exDb7 5 7 8 ["s1".toList] [[exFileM1]]
      (fun _ => ⟨[], 5⟩) (fun _ => ⟨[], 5⟩) (by decide)⟩

/-! ## cranker (`utils.rs`, `main.rs`)

Instructions are abstract tokens plus the two compute-budget prefixes.  The
submission behaviour is modelled against an ideal RPC environment (every
`send_transaction_with_config` returns `Ok`, every signature reaches
confirmed commitment), which resolves each retry loop in its first round;
what the claims concern — which code paths call the RPC submit at all, and
how `dry_run` gates them — is taken verbatim from the source:
`parallel_execute_transactions` submits unconditionally (it never reads
`dry_run`), while `retry_send_transaction` returns `Ok` before submitting
when `dry_run` is set.  Each function returns the list of transactions it
submitted to the RPC. -/

inductive Instr where
  | setComputeUnitPrice (micro_lamports : Nat)
  | setComputeUnitLimit (units : Nat)
  | other (id : Nat)
deriving DecidableEq, Repr

structure CrankerConfig where
  dry_run : Bool
  simulate : Bool
deriving DecidableEq, Repr

/-- `chunks(2)` of the update-list instructions. -/
def chunksTwo {α : Type} : List α → List (List α)
  | [] => []
  | [a] => [[a]]
  | a :: b :: rest => [a, b] :: chunksTwo rest

/-- `parallel_execute_transactions` under the ideal RPC: with `retry ≤ 1` the
`for _ in 1..retry` loop never runs and the call fails with `RetryError`;
otherwise round one submits every transaction (skip-preflight sends, no
`dry_run` consultation anywhere in the function), the confirmation pass
empties the pending set and the call returns `Ok`. -/
def parallel_execute_transactions (transactions : List (List Instr))
    (cfg : CrankerConfig) (retry : Nat) : Except String Unit × List (List Instr) :=
  if 1 < retry then (.ok (), transactions)
  else (.error "RetryError", [])

/-- `retry_send_transaction` under the ideal RPC: `dry_run` returns `Ok`
before any send; simulate mode calls `simulate_transaction` (not a
submission); otherwise (`1 < retry`) the first `send_transaction` succeeds.
With `retry ≤ 1` the loop body never runs and the initial `Ok` is returned. -/
def retry_send_transaction (cfg : CrankerConfig) (transaction : List Instr)
    (retry : Nat) : Except String Unit × List (List Instr) :=
  if cfg.dry_run then (.ok (), [])
  else if 1 < retry then (.ok (), if cfg.simulate then [] else [transaction])
  else (.ok (), [])

/-- The final-transaction phase of `parallel_execute_stake_pool_update`:
initial priority fee, then the high-fee retry on failure. -/
def finalPhase (cfg : CrankerConfig) (final_instructions : List Instr) :
    Except String Unit × List (List Instr) :=
  let tx := [Instr.setComputeUnitPrice 10000, Instr.setComputeUnitLimit 1400000] ++
    final_instructions
  let r1 := retry_send_transaction cfg tx 250
  match r1.1 with
  | .ok _ => (.ok (), r1.2)
  | .error _ =>
      let tx2 := [Instr.setComputeUnitPrice 1000000, Instr.setComputeUnitLimit 1400000] ++
        final_instructions
      let r2 := retry_send_transaction cfg tx2 250
      (r2.1, r1.2 ++ r2.2)

/-- `parallel_execute_stake_pool_update`: early return when the pool is
already updated and `force` is unset; otherwise pair the update-list
instructions with the compute-budget prefix, run the parallel submission
(with the high-fee retry on failure), then the final transaction phase. -/
def parallel_execute_stake_pool_update (cfg : CrankerConfig)
    (last_update_epoch epoch : Nat) (force : Bool)
    (update_list_instructions final_instructions : List Instr) :
    Except String Unit × List (List Instr) :=
  if last_update_epoch = epoch ∧ ¬force then (.ok (), [])
  else
    let update_txs := (chunksTwo update_list_instructions).map (fun chunk =>
      [Instr.setComputeUnitPrice 10000, Instr.setComputeUnitLimit 600000] ++ chunk)
    let r1 := parallel_execute_transactions update_txs cfg 250
    match r1.1 with
    | .ok _ =>
        let rf := finalPhase cfg final_instructions
        (rf.1, r1.2 ++ rf.2)
    | .error _ =>
        let update_txs2 := (chunksTwo update_list_instructions).map (fun chunk =>
          [Instr.setComputeUnitPrice 1000000, Instr.setComputeUnitLimit 600000] ++ chunk)
        let r2 := parallel_execute_transactions update_txs2 cfg 250
        match r2.1 with
        | .error e => (.error e, r1.2 ++ r2.2)
        | .ok _ =>
            let rf := finalPhase cfg final_instructions
            (rf.1, r1.2 ++ r2.2 ++ rf.2)

/-- C9: evaluation at the failing input.  A dry-run crank (`dry_run = true`,
`force = true` as `update_stake_pool` passes it) over a two-instruction
update list still submits the paired update-list transaction to the RPC —
`parallel_execute_transactions` has no dry-run check — and only the final
pool-balance/cleanup transaction is withheld, refuting "never submits any
transaction". -/
theorem C9_dry_run_still_submits :
    parallel_execute_stake_pool_update ⟨true, false⟩ 10 10 true
      [Instr.other 1, Instr.other 2] [Instr.other 3] =
      (.ok (), [[Instr.setComputeUnitPrice 10000, Instr.setComputeUnitLimit 600000,
        Instr.other 1, Instr.other 2]]) ∧
    ([[Instr.setComputeUnitPrice 10000, Instr.setComputeUnitLimit 600000,
        Instr.other 1, Instr.other 2]] : List (List Instr)) ≠ [] ∧
    retry_send_transaction ⟨true, false⟩
      [Instr.setComputeUnitPrice 10000, Instr.setComputeUnitLimit 1400000,
        Instr.other 3] 250 = (.ok (), []) := by
  refine ⟨by decide, by decide, by decide⟩

end Kobe
